import Mathlib

/-!
Verification development for the Bisecting_Log repository.

This file gives a shallow embedding, in Lean 4, of the core subsystems of the
repository — the progress-accounting contract (`app/core/progress.py`), the
pipeline unit budget (`app/core/cluster.py`), the verbose bisecting k-means
engine (`app/core/custom_bkm.py`, whose tree layer `_BisectingTree` and 2-means
splitter live in the external scikit-learn dependency and are modelled from the
spec), the manual bisecting engine of the notebook (`app/bkm.py`), and the
deduplicating embedding cache (`app/core/embeddings.py`) — together with
theorems settling the specification claims about them.

Python integers are modelled as `Int`/`Nat`, float arithmetic is modelled
exactly over `ℚ` (the spec states its formulas in exact arithmetic), strings as
`String`, numpy arrays as `List`s, and fallible code with `Except`.

Definitions come first, theorems afterwards.
-/

/-! Part 1: definitions. -/

/-- Python's builtin `round` (round half to even), on an exact rational input.
`progress.py` computes `int(round(current / total_units * 100))`; we model the
float computation by the exact rational it stands for. -/
def pyRound (q : ℚ) : Int :=
  if q - ⌊q⌋ < 1/2 then ⌊q⌋
  else if 1/2 < q - ⌊q⌋ then ⌊q⌋ + 1
  else if ⌊q⌋ % 2 = 0 then ⌊q⌋ else ⌊q⌋ + 1

/-- State of `ProgressManager` (`app/core/progress.py`, lines 39-60). -/
structure ProgressManager where
  total_units : Int
  current : Int
  status : String
deriving DecidableEq, Repr

/-- Constructor `ProgressManager.__init__`: clamps `total_units` to
`max(1, int(total_units))` and starts at `current = 0`. -/
def ProgressManager.make (total_units : Int) (initial_status : Option String) : ProgressManager :=
  { total_units := max 1 total_units
    current := 0
    status := initial_status.getD "" }

/-- Method `advance`: `self.current = min(self.total_units, self.current + max(0, int(units)))`. -/
def ProgressManager.advance (pm : ProgressManager) (units : Int) : ProgressManager :=
  { pm with current := min pm.total_units (pm.current + max 0 units) }

/-- Method `set_status`: records the message (the `STATUS:` line carries no
`PROGRESS:` integer). -/
def ProgressManager.setStatus (pm : ProgressManager) (msg : String) : ProgressManager :=
  { pm with status := msg }

/-- Method `complete`: forces `current` to `total_units` (then reports 100% and
prints `DONE`). -/
def ProgressManager.complete (pm : ProgressManager) : ProgressManager :=
  { pm with current := pm.total_units }

/-- The integer printed by `_report_progress`:
`int(round(self.current / self.total_units * 100))`. -/
def ProgressManager.reportPct (pm : ProgressManager) : Int :=
  pyRound ((pm.current : ℚ) / (pm.total_units : ℚ) * 100)

/-- One observable operation on a `ProgressManager` over its lifetime. -/
inductive ProgressOp where
  | advance (units : Int)
  | complete
  | setStatus (msg : String)
deriving DecidableEq, Repr

/-- Apply one operation to the tracker state. -/
def ProgressManager.applyOp (pm : ProgressManager) : ProgressOp → ProgressManager
  | .advance u => pm.advance u
  | .complete => pm.complete
  | .setStatus m => pm.setStatus m

/-- The `PROGRESS:` integers emitted by one operation: `advance` and `complete`
each call `_report_progress` once, `set_status` prints only a `STATUS:` line. -/
def ProgressManager.emitted (pm : ProgressManager) : ProgressOp → List Int
  | .advance u => [(pm.advance u).reportPct]
  | .complete => [pm.complete.reportPct]
  | .setStatus _ => []

/-- Run a list of operations, returning the final state and the whole sequence
of emitted `PROGRESS:` integers. -/
def runOps (pm : ProgressManager) : List ProgressOp → ProgressManager × List Int
  | [] => (pm, [])
  | op :: rest =>
    let pm1 := pm.applyOp op
    let res := runOps pm1 rest
    (res.1, pm.emitted op ++ res.2)

/-- Well-formedness of a tracker state: positivity of the denominator and the
bounds on `current` that every reachable state satisfies. -/
def ProgressManager.WF (pm : ProgressManager) : Prop :=
  1 ≤ pm.total_units ∧ 0 ≤ pm.current ∧ pm.current ≤ pm.total_units

/-! Pipeline unit budget. `run_clustering` (`app/core/cluster.py`, lines
191-206) builds an 8-stage budget; the clustering stage cost and the engine's
local fallback scale each restate the formula `4 + max(1, k-1) + 3`. -/

/-- The 8 pipeline stages of `run_clustering` (`app/core/cluster.py`, lines 191-200). -/
def pipelineStages : List String :=
  ["read_and_parse", "extract_and_tokenize", "embed_urls", "vectorize_other_features",
   "combine_and_sample", "fit_model_on_sample", "assign_and_save", "evaluate_and_finish"]

/-- Clustering stage unit cost, `bkm_units = 4 + max(1, n_clusters - 1) + 3`
(`app/core/cluster.py`, line 202). -/
def bkmUnits (k : Int) : Int := 4 + max 1 (k - 1) + 3

/-- Per-stage unit assignment of `run_clustering` (`app/core/cluster.py`, line 203). -/
def stageUnits (k : Int) (s : String) : Int :=
  if s = "fit_model_on_sample" then bkmUnits k else 1

/-- Total unit budget `total_units = sum(stage_units.values())`
(`app/core/cluster.py`, line 204). -/
def pipelineTotalUnits (k : Int) : Int := (pipelineStages.map (stageUnits k)).sum

/-- The engine's local fallback scale, `bkm_total_units = 4 + max(1, self.n_clusters - 1) + 3`
(`app/core/custom_bkm.py`, line 32), used when no shared tracker is supplied. -/
def fitVerboseLocalTotalUnits (n_clusters : Int) : Int := 4 + max 1 (n_clusters - 1) + 3

/-- The fallback tracker size built by `bkm_fit` when called without a tracker,
`ProgressManager(4 + max(1, n_clusters - 1) + 3)` (`app/core/cluster.py`, line 70). -/
def bkmFitFallbackTotal (n_clusters : Int) : Int := 4 + max 1 (n_clusters - 1) + 3

/-! Exact rational vector arithmetic used by the clustering models. -/

/-- A feature vector: one row of the feature matrix. -/
abbrev QVec := List ℚ

/-- The all-zero vector of dimension `D`. -/
def vzero (D : Nat) : QVec := List.replicate D 0

/-- Componentwise vector addition. -/
def vadd (u v : QVec) : QVec := List.zipWith (· + ·) u v

/-- Componentwise vector subtraction. -/
def vsub (u v : QVec) : QVec := List.zipWith (· - ·) u v

/-- Scalar multiple of a vector. -/
def vscale (c : ℚ) (v : QVec) : QVec := v.map (fun x => c * x)

/-- Squared Euclidean norm. -/
def normSq (v : QVec) : ℚ := (v.map (fun x => x * x)).sum

/-- Sum of a list of vectors of dimension `D`. -/
def vsum (D : Nat) (l : List QVec) : QVec := l.foldr vadd (vzero D)

/-- Row `i` of the feature matrix `X` (out-of-range reads give the zero vector;
all reads performed by the models are in range). -/
def rowAt (D : Nat) (X : List QVec) (i : Nat) : QVec := X.getD i (vzero D)

/-- Mean of the rows of `X` selected by the index list `S`. -/
def centroid (D : Nat) (X : List QVec) (S : List Nat) : QVec :=
  vscale (1 / (S.length : ℚ)) (vsum D (S.map (rowAt D X)))

/-- Within-cluster sum of squares of the rows selected by `S`, about their mean.
Models scikit-learn's per-cluster inertia at 2-means convergence (sample
weights default to 1, `app/core/custom_bkm.py` line 29). -/
def inertiaOf (D : Nat) (X : List QVec) (S : List Nat) : ℚ :=
  (S.map (fun i => normSq (vsub (rowAt D X i) (centroid D X S)))).sum

/-! The bisecting engine of `VerboseBisectingKMeans.fit_verbose`
(`app/core/custom_bkm.py`, lines 80-160). The tree is represented by its
DFS-ordered leaf sequence: replacing a leaf by its two children in place is
exactly what `_BisectingTree.split` does to the `iter_leaves()` order. -/

/-- A leaf of the bisecting tree: member row indices, owned center, badness
score (scikit-learn `_BisectingTree` node). -/
structure ClusterNode where
  indices : List Nat
  center : QVec
  score : ℚ
deriving DecidableEq, Repr

/-- Default node used for out-of-range list reads. -/
def nodeDefault : ClusterNode := ⟨[], [], 0⟩

/-- Modelled from the spec: scikit-learn's `_BisectingTree.get_cluster_to_bisect`
(not part of this repository) scans the leaves and keeps the one whose score is
strictly greater than the best so far, so the first leaf attaining the maximum
score wins ties. This returns that position in the leaf sequence. -/
def worstIdx : List ClusterNode → Nat
  | [] => 0
  | c :: rest =>
    if rest.isEmpty then 0
    else if c.score < (rest.getD (worstIdx rest) nodeDefault).score then worstIdx rest + 1
    else 0

/-- Error message standing for the failure of a 2-means sub-clustering on a
leaf with fewer than two members (the spec's `EmptyClusterError` failure mode). -/
def emptyClusterMsg : String :=
  "EmptyClusterError: selected leaf has fewer than 2 members and cannot be bisected"

/-- Modelled from the spec: one iteration of the split loop of `fit_verbose`
(`app/core/custom_bkm.py`, lines 90-93). The selected worst leaf is handed to
scikit-learn's `_bisect` (not part of this repository), which per the spec runs
a 2-means on the leaf's member rows — failing when there are fewer than 2
members — and replaces the leaf by two children holding the partitioned
indices, their centroids as centers, and their within-cluster inertias as
scores (`bisecting_strategy="biggest_inertia"`, the default used by `bkm_fit`).
The abstract `splitter` stands for the 2-means partition of the member list. -/
def splitSelected (D : Nat) (X : List QVec) (splitter : List Nat → List Nat × List Nat)
    (leaves : List ClusterNode) : Except String (List ClusterNode) :=
  let j := worstIdx leaves
  let c := leaves.getD j nodeDefault
  if c.indices.length < 2 then .error emptyClusterMsg
  else
    let a := (splitter c.indices).1
    let b := (splitter c.indices).2
    .ok (leaves.take j ++
      [⟨a, centroid D X a, inertiaOf D X a⟩, ⟨b, centroid D X b, inertiaOf D X b⟩] ++
      leaves.drop (j + 1))

/-- The `for step in range(self.n_clusters - 1)` loop of `fit_verbose`
(`app/core/custom_bkm.py`, line 90), iterated on the leaf sequence. -/
def iterSplits (D : Nat) (X : List QVec) (splitter : List Nat → List Nat × List Nat) :
    Nat → List ClusterNode → Except String (List ClusterNode)
  | 0, ls => .ok ls
  | n + 1, ls =>
    match splitSelected D X splitter ls with
    | .error e => .error e
    | .ok ls2 => iterSplits D X splitter n ls2

/-- The root node covering all `N` samples (`app/core/custom_bkm.py`, line 81):
`_BisectingTree(indices=np.arange(N), center=X.mean(axis=0), score=0)`. The
mean-centering of lines 68-71 and its inversion in lines 154-156 cancel in
exact arithmetic, so centers are kept in original coordinates throughout. -/
def rootNode (D : Nat) (X : List QVec) : ClusterNode :=
  ⟨List.range X.length, centroid D X (List.range X.length), 0⟩

/-- Write label `i` at every position of `ls` listed in leaf `c`:
`self.labels_[node.indices] = i` (`app/core/custom_bkm.py`, line 149). -/
def writeLeaf (ls : List Int) (i : Nat) (c : ClusterNode) : List Int :=
  c.indices.foldl (fun a p => a.set p (Int.ofNat i)) ls

/-- The `for i, node in enumerate(self._bisecting_tree.iter_leaves())` labelling
loop (`app/core/custom_bkm.py`, lines 148-152). -/
def assignFrom (ls : List Int) (i : Nat) : List ClusterNode → List Int
  | [] => ls
  | c :: rest => assignFrom (writeLeaf ls i c) (i + 1) rest

/-- Final label array: starts as `np.full(N, -1)` (`app/core/custom_bkm.py`,
line 145) and is filled leaf by leaf in stable leaf order. -/
def assignLabels (N : Nat) (leaves : List ClusterNode) : List Int :=
  assignFrom (List.replicate N (-1)) 0 leaves

/-- Result of a fit: labels, centers, inertia. -/
structure FitResult where
  labels : List Int
  centers : List QVec
  inertia : ℚ
deriving Repr

/-- Final inertia (`app/core/custom_bkm.py`, lines 158-159): the sum over all
samples of the squared distance to the assigned center, with the default unit
sample weights (`_inertia_dense` modelled from the spec, step 5 of §4.1). -/
def fitInertia (D : Nat) (X : List QVec) (centers : List QVec) (labels : List Int) : ℚ :=
  ((List.range X.length).map (fun p =>
    normSq (vsub (rowAt D X p) (centers.getD (labels.getD p 0).toNat (vzero D))))).sum

/-- The tree phase and finalization of `fit_verbose` (`app/core/custom_bkm.py`,
lines 80-160): build the root, run `k-1` splits, then assign labels, collect
centers, and compute the inertia. -/
def fitVerbose (D : Nat) (X : List QVec) (k : Nat)
    (splitter : List Nat → List Nat × List Nat) : Except String FitResult :=
  match iterSplits D X splitter (k - 1) [rootNode D X] with
  | .error e => .error e
  | .ok leaves =>
    let labels := assignLabels X.length leaves
    let centers := leaves.map ClusterNode.center
    .ok ⟨labels, centers, fitInertia D X centers labels⟩

/-- Validity of an abstract 2-means splitter: on a list of at least two member
indices it returns two nonempty halves that together are a permutation of the
input (the `indices[labels == 0]` / `indices[labels == 1]` partition). -/
def ValidSplitter (f : List Nat → List Nat × List Nat) : Prop :=
  ∀ l : List Nat, 2 ≤ l.length → (f l).1 ≠ [] ∧ (f l).2 ≠ [] ∧ ((f l).1 ++ (f l).2).Perm l

/-- A concrete valid splitter: first member versus the rest. -/
def headSplitter (l : List Nat) : List Nat × List Nat := (l.take 1, l.drop 1)

/-- The splitter realising the optimal 2-means partition of the duplicate-point
matrix `X3dup` at the root, and `headSplitter` elsewhere. -/
def dupSplitter (l : List Nat) : List Nat × List Nat :=
  if l = [0, 1, 2] then ([0], [1, 2]) else headSplitter l

/-- A 3-sample, 1-feature matrix with a duplicated point. -/
def X3dup : List QVec := [[0], [1], [1]]

/-- A 2-sample, 1-feature matrix with distinct points. -/
def X2distinct : List QVec := [[0], [1]]

/-- The leaf sequence reached after the first split of `fitVerbose` on `X3dup`
with `dupSplitter`: the optimal 2-means partition of the three samples. -/
def X3dupLeaves1 : List ClusterNode :=
  [⟨[0], centroid 1 X3dup [0], inertiaOf 1 X3dup [0]⟩,
   ⟨[1, 2], centroid 1 X3dup [1, 2], inertiaOf 1 X3dup [1, 2]⟩]

/-- The leaf sequence reached after the first split of `fitVerbose` on
`X2distinct` with `headSplitter`. -/
def X2Leaves1 : List ClusterNode :=
  [⟨[0], centroid 1 X2distinct [0], inertiaOf 1 X2distinct [0]⟩,
   ⟨[1], centroid 1 X2distinct [1], inertiaOf 1 X2distinct [1]⟩]

/-! The manual bisecting engine `cluster_logs_manual` (`app/bkm.py`, lines
463-501): its split-selection strategy dispatch. -/

/-- A cluster of the manual engine: a row-index set and its 1-means inertia
(the dict entries `clusters[cid]` / `cluster_inertias[cid]`, positions playing
the role of the cluster ids, which are created in increasing order). -/
structure ManualCluster where
  indices : List Nat
  inertia : ℚ
deriving DecidableEq, Repr

/-- Default manual cluster used for out-of-range list reads. -/
def manualDefault : ManualCluster := ⟨[], 0⟩

/-- Position of the first cluster attaining the maximal key, the semantics of
Python's `max(..., key=...)` used at `app/bkm.py` lines 497 and 499. -/
def argmaxBy (f : ManualCluster → ℚ) : List ManualCluster → Nat
  | [] => 0
  | c :: rest =>
    if rest.isEmpty then 0
    else if f c < f (rest.getD (argmaxBy f rest) manualDefault) then argmaxBy f rest + 1
    else 0

/-- The `ValueError` message of `app/bkm.py` line 501 (quotes dropped). -/
def strategyErrorMsg : String := "strategy must be biggest_inertia or largest_cluster"

/-- Strategy dispatch of `cluster_logs_manual` (`app/bkm.py`, lines 496-503):
`"biggest_inertia"` picks the cluster of maximal inertia, `"largest_cluster"`
the cluster of maximal population, anything else raises `ValueError`. -/
def selectTargetCid (strategy : String) (clusters : List ManualCluster) : Except String Nat :=
  if strategy = "biggest_inertia" then .ok (argmaxBy ManualCluster.inertia clusters)
  else if strategy = "largest_cluster" then
    .ok (argmaxBy (fun c => (c.indices.length : ℚ)) clusters)
  else .error strategyErrorMsg

/-- Constructor arguments of the engine instance built by the pipeline entry
`bkm_fit` (`app/core/cluster.py`, line 73): `VerboseBisectingKMeans(n_clusters=n,
random_state=42, init="k-means++", n_init=5)`. No `bisecting_strategy` is
passed, so the scikit-learn default `"biggest_inertia"` applies. -/
structure BkmParams where
  n_clusters : Nat
  random_state : Int
  kmInit : String
  n_init : Nat
  bisecting_strategy : String
deriving DecidableEq, Repr

/-- The fixed parameters `bkm_fit` uses for every fit. -/
def bkmFitParams (n : Nat) : BkmParams := ⟨n, 42, "k-means++", 5, "biggest_inertia"⟩

/-! The deduplicating embedding cache `generate_url_bert`
(`app/core/embeddings.py`, lines 47-227). -/

/-- Persistent cache state: the key-to-offset index (`url_index.pkl`), the
metadata `capacity` / `n_stored` (`global_meta.pkl`), and the backing rows of
`global_url_embeddings.memmap` (`capacity` rows, float16 on disk; values are
modelled exactly). -/
structure CacheState where
  index : List (String × Nat)
  capacity : Nat
  n_stored : Nat
  store : List QVec
deriving DecidableEq, Repr

/-- Dictionary lookup `index.get(u)` (first binding wins; keys are unique). -/
def lookupIndex (idx : List (String × Nat)) (u : String) : Option Nat :=
  (idx.find? (fun p => p.1 == u)).map Prod.snd

/-- Insertion into a sorted list of strings. -/
def insertSortedStr (s : String) : List String → List String
  | [] => [s]
  | t :: rest => if s ≤ t then s :: t :: rest else t :: insertSortedStr s rest

/-- Insertion sort on strings. -/
def sortStrings (l : List String) : List String := l.foldr insertSortedStr []

/-- Result of `np.unique(url_list)` (`app/core/embeddings.py`, line 92): the
distinct values of the list in sorted order. -/
def uniqueSorted (l : List String) : List String := sortStrings l.dedup

/-- The inverse mapping `orig_to_unique` of `np.unique(..., return_inverse=True)`:
each original position mapped to the position of its key among the unique keys. -/
def origToUnique (url_list : List String) : List Nat :=
  url_list.map (fun u => (uniqueSorted url_list).indexOf u)

/-- The cache-miss list `urls_to_compute` (`app/core/embeddings.py`, lines
108-114): unique keys not present in the index, in unique order. The companion
`urls_to_compute_idx` list is only used to recover `unique_urls[u_idx]`, which
is the batch element itself, so it is not modelled separately. -/
def urlsToCompute (idx : List (String × Nat)) (uniq : List String) : List String :=
  uniq.filter (fun u => (lookupIndex idx u).isNone)

/-- The grown capacity (`app/core/embeddings.py`, lines 123-129):
`max(capacity * 2 if capacity > 0 else 1024, capacity + need)`, then clamped by
`max_cache_rows`: if the result exceeds the cap, fall back to the cap, or
refuse growth entirely when the current capacity already meets the cap. -/
def grownCapacity (capacity need : Nat) (max_cache_rows : Option Nat) : Nat :=
  let base := max (if 0 < capacity then capacity * 2 else 1024) (capacity + need)
  match max_cache_rows with
  | none => base
  | some M => if M < base then (if M ≤ capacity then capacity else M) else base

/-- The growth step (`app/core/embeddings.py`, lines 122-146): when free
capacity is below the needed row count, allocate a zero-filled region of the
grown capacity, copy the first `n_stored` rows, and swap it in. -/
def growStore (dim : Nat) (st : CacheState) (need : Nat) (M : Option Nat) : CacheState :=
  if (st.capacity : Int) - st.n_stored < need then
    let nc := grownCapacity st.capacity need M
    { st with
      capacity := nc
      store := st.store.take st.n_stored ++ List.replicate (nc - st.n_stored) (vzero dim) }
  else st

/-- Split a list into consecutive chunks of size `bs`, the batching
`for i in trange(0, len(urls), batch_size)` of `app/core/embeddings.py`. -/
def chunked {α : Type} (bs : Nat) (l : List α) : List (List α) :=
  if _h : bs = 0 ∨ l.isEmpty then [] else l.take bs :: chunked bs (l.drop bs)
termination_by l.length
decreasing_by
  simp only [List.length_drop]
  rcases Nat.eq_zero_or_pos bs with hb | hb
  · exact absurd (Or.inl hb) _h
  · have hl : ¬ l.isEmpty := fun he => _h (Or.inr he)
    have : 0 < l.length := by
      cases l with
      | nil => exact absurd rfl hl
      | cons a t => exact Nat.succ_pos _
    omega

/-- Mutable state threaded through the encoding loop of
`app/core/embeddings.py`, lines 148-177: the index, the stored-row counter, the
backing rows, and the transient `temp_new_embeddings` overflow dict. -/
structure BatchAcc where
  index : List (String × Nat)
  n_stored : Nat
  store : List QVec
  temp : List (String × QVec)
deriving Repr

/-- New index entries for one stored batch (`app/core/embeddings.py`, lines
162-164): the `j`-th key of the batch is bound to offset `n_stored + j`. -/
def offsetEntries : List String → Nat → List (String × Nat)
  | [], _ => []
  | u :: us, off => (u, off) :: offsetEntries us (off + 1)

/-- Write the rows of one embedded batch into the store starting at `off`
(`global_mm[n_stored : n_stored + len, :] = emb`). -/
def writeRows (store : List QVec) (off : Nat) : List QVec → List QVec
  | [] => store
  | v :: vs => writeRows (store.set off v) (off + 1) vs

/-- Process one batch (`app/core/embeddings.py`, lines 148-177): encode it,
then either persist it into the global store — when the store exists and the
batch fits (`can_store_globally`) — or park it in the transient overflow. -/
def processBatch (enc : String → QVec) (capacity : Nat) (acc : BatchAcc) (b : List String) :
    BatchAcc :=
  let emb := b.map enc
  if 0 < capacity ∧ acc.n_stored + emb.length ≤ capacity then
    { index := acc.index ++ offsetEntries b acc.n_stored
      n_stored := acc.n_stored + emb.length
      store := writeRows acc.store acc.n_stored emb
      temp := acc.temp }
  else { acc with temp := acc.temp ++ b.zip emb }

/-- The whole encoding loop over the missing-key batches. -/
def processBatches (enc : String → QVec) (capacity : Nat) (acc : BatchAcc)
    (bats : List (List String)) : BatchAcc :=
  bats.foldl (processBatch enc capacity) acc

/-- Output-row lookup for one key (`app/core/embeddings.py`, lines 189-198):
indexed keys read the global store, fresh unpersisted keys read the overflow,
and the defensive fallback is the zero row. -/
def rowFor (idx : List (String × Nat)) (store : List QVec) (temp : List (String × QVec))
    (dim : Nat) (u : String) : QVec :=
  match lookupIndex idx u with
  | some gi => store.getD gi (vzero dim)
  | none =>
    match temp.find? (fun p => p.1 == u) with
    | some p => p.2
    | none => vzero dim

/-- Result of one `generate_url_bert` call: the returned matrix, the dtype of
the returned array (`"float16"` for the cached memmap path, `"float32"` for
the uncached dense path), the cache state afterwards, and the list of batches
handed to the encoder (one encoder invocation per batch). -/
structure EmbedResult where
  rows : List QVec
  dtype : String
  state : CacheState
  encoderBatches : List (List String)
deriving Repr

/-- The store after the growth step of one cached call: `urls_to_compute` rows
are needed beyond the free capacity or not (`app/core/embeddings.py`, lines
120-146). -/
def cachedGrown (dim : Nat) (url_list : List String) (max_cache_rows : Option Nat)
    (st : CacheState) : CacheState :=
  growStore dim st (urlsToCompute st.index (uniqueSorted url_list)).length max_cache_rows

/-- The batches of missing keys handed to the encoder by one cached call. -/
def cachedBatches (batch_size : Nat) (url_list : List String) (st : CacheState) :
    List (List String) :=
  chunked batch_size (urlsToCompute st.index (uniqueSorted url_list))

/-- The accumulator state after the whole encoding loop of one cached call. -/
def cachedAcc (enc : String → QVec) (dim batch_size : Nat) (url_list : List String)
    (max_cache_rows : Option Nat) (st : CacheState) : BatchAcc :=
  processBatches enc (cachedGrown dim url_list max_cache_rows st).capacity
    ⟨(cachedGrown dim url_list max_cache_rows st).index,
     (cachedGrown dim url_list max_cache_rows st).n_stored,
     (cachedGrown dim url_list max_cache_rows st).store, []⟩
    (cachedBatches batch_size url_list st)

/-- The cached path of `generate_url_bert` (`app/core/embeddings.py`, lines
53-205): deduplicate, partition into hits and misses, grow the store if needed,
encode the misses in batches, and build the output by lookup. -/
def generateUrlBertCached (enc : String → QVec) (dim batch_size : Nat)
    (url_list : List String) (max_cache_rows : Option Nat) (st : CacheState) : EmbedResult :=
  let uniq := uniqueSorted url_list
  let st1 := cachedGrown dim url_list max_cache_rows st
  let acc := cachedAcc enc dim batch_size url_list max_cache_rows st
  let st2 : CacheState := ⟨acc.index, st1.capacity, acc.n_stored, acc.store⟩
  let rows := (origToUnique url_list).map
    (fun ui => rowFor st2.index st2.store acc.temp dim (uniq.getD ui ""))
  ⟨rows, "float16", st2, cachedBatches batch_size url_list st⟩

/-- The uncached path of `generate_url_bert` (`app/core/embeddings.py`, lines
51-52 and 207-227), taken when `out_path` is falsy: every batch of the full
input list goes to the encoder, nothing is deduplicated or persisted, and the
stacked full-precision rows are returned. -/
def generateUrlBertNoCache (enc : String → QVec) (batch_size : Nat) (url_list : List String)
    (st : CacheState) : EmbedResult :=
  let bats := chunked batch_size url_list
  ⟨(bats.map (fun b => b.map enc)).flatten, "float32", st, bats⟩

/-- Dispatch of `generate_url_bert` on `out_path` (`app/core/embeddings.py`,
line 51: `if not out_path`). -/
def generateUrlBert (enc : String → QVec) (dim batch_size : Nat) (url_list : List String)
    (out_path : String) (max_cache_rows : Option Nat) (st : CacheState) : EmbedResult :=
  if out_path = "" then generateUrlBertNoCache enc batch_size url_list st
  else generateUrlBertCached enc dim batch_size url_list max_cache_rows st

/-- Well-formedness of the accumulator threaded through the encoding loop:
the stored prefix fits the capacity, the backing region has exactly `capacity`
rows, index offsets point into the stored prefix, and index keys are unique. -/
def AccWF (capacity : Nat) (acc : BatchAcc) : Prop :=
  acc.n_stored ≤ capacity ∧ acc.store.length = capacity ∧
  (∀ p ∈ acc.index, p.2 < acc.n_stored) ∧ (acc.index.map Prod.fst).Nodup

/-- Well-formedness of a persisted cache state: the stored prefix fits the
capacity, the backing region has exactly `capacity` rows, index offsets point
into the stored prefix, and index keys are unique. -/
def CacheWF (st : CacheState) : Prop :=
  st.n_stored ≤ st.capacity ∧ st.store.length = st.capacity ∧
  (∀ p ∈ st.index, p.2 < st.n_stored) ∧ (st.index.map Prod.fst).Nodup

/-- Structural invariant of the leaf sequence during `fit_verbose`: every leaf
is nonempty, every center has dimension `D`, and the leaf index sets partition
the full sample index set (their concatenation is a permutation of
`range N` — no overlaps, no gaps). -/
def LeavesInv (D : Nat) (X : List QVec) (leaves : List ClusterNode) : Prop :=
  (∀ c ∈ leaves, c.indices ≠ []) ∧
  (∀ c ∈ leaves, c.center.length = D) ∧
  ((leaves.map ClusterNode.indices).flatten).Perm (List.range X.length)

/-- After the first split, every leaf score is the within-cluster inertia of
its index set (the `biggest_inertia` bookkeeping). -/
def ScoresAreInertias (D : Nat) (X : List QVec) (leaves : List ClusterNode) : Prop :=
  ∀ c ∈ leaves, c.score = inertiaOf D X c.indices

/-! Part 2: theorems. -/

theorem pyRound_le (q : ℚ) : (pyRound q : ℚ) ≤ q + 1/2 := by
  have h0 : (⌊q⌋ : ℚ) ≤ q := Int.floor_le q
  have h1 : q < ⌊q⌋ + 1 := Int.lt_floor_add_one q
  unfold pyRound
  split_ifs with hA hB hC <;> push_cast <;> linarith

theorem le_pyRound (q : ℚ) : q - 1/2 ≤ (pyRound q : ℚ) := by
  have h0 : (⌊q⌋ : ℚ) ≤ q := Int.floor_le q
  have h1 : q < ⌊q⌋ + 1 := Int.lt_floor_add_one q
  unfold pyRound
  split_ifs with hA hB hC <;> push_cast <;> linarith

theorem pyRound_mono {x y : ℚ} (hxy : x ≤ y) : pyRound x ≤ pyRound y := by
  by_contra hlt
  push_neg at hlt
  have hba : pyRound y + 1 ≤ pyRound x := hlt
  have h1 : (pyRound x : ℚ) ≤ x + 1/2 := pyRound_le x
  have h2 : y - 1/2 ≤ (pyRound y : ℚ) := le_pyRound y
  have hba' : ((pyRound y : ℚ) + 1) ≤ (pyRound x : ℚ) := by exact_mod_cast hba
  have hxeqy : x = y := by linarith
  subst hxeqy
  omega

theorem pyRound_nonneg {q : ℚ} (hq : 0 ≤ q) : 0 ≤ pyRound q := by
  have h := le_pyRound q
  have h2 : (-1 : ℚ) < (pyRound q : ℚ) := by linarith
  have h3 : (-1 : Int) < pyRound q := by exact_mod_cast h2
  omega

theorem pyRound_le_hundred {q : ℚ} (hq : q ≤ 100) : pyRound q ≤ 100 := by
  have h := pyRound_le q
  have h2 : (pyRound q : ℚ) < 101 := by linarith
  have h3 : pyRound q < 101 := by exact_mod_cast h2
  omega

theorem ProgressManager.make_WF (t : Int) (s : Option String) : (ProgressManager.make t s).WF :=
  ⟨le_max_left _ _, le_refl _, le_trans zero_le_one (le_max_left 1 t)⟩

theorem ProgressManager.applyOp_WF {pm : ProgressManager} (h : pm.WF) (op : ProgressOp) :
    (pm.applyOp op).WF := by
  obtain ⟨h1, h2, h3⟩ := h
  cases op with
  | advance u =>
    simp only [ProgressManager.applyOp, ProgressManager.advance, ProgressManager.WF]
    refine ⟨h1, ?_, ?_⟩ <;> omega
  | complete =>
    simp only [ProgressManager.applyOp, ProgressManager.complete, ProgressManager.WF]
    exact ⟨h1, by omega, le_refl _⟩
  | setStatus m => exact ⟨h1, h2, h3⟩

theorem ProgressManager.applyOp_total_units (pm : ProgressManager) (op : ProgressOp) :
    (pm.applyOp op).total_units = pm.total_units := by
  cases op <;> rfl

theorem ProgressManager.applyOp_current_mono {pm : ProgressManager} (h : pm.WF) (op : ProgressOp) :
    pm.current ≤ (pm.applyOp op).current := by
  obtain ⟨h1, h2, h3⟩ := h
  cases op with
  | advance u =>
    simp only [ProgressManager.applyOp, ProgressManager.advance]
    exact le_min h3 (by omega)
  | complete => exact h3
  | setStatus m => exact le_refl _

theorem ProgressManager.reportPct_nonneg {pm : ProgressManager} (h : pm.WF) : 0 ≤ pm.reportPct := by
  obtain ⟨h1, h2, _⟩ := h
  apply pyRound_nonneg
  have ht : (0 : ℚ) ≤ (pm.total_units : ℚ) := by exact_mod_cast le_trans zero_le_one h1
  have hc : (0 : ℚ) ≤ (pm.current : ℚ) := by exact_mod_cast h2
  exact mul_nonneg (div_nonneg hc ht) (by norm_num)

theorem ProgressManager.reportPct_le_hundred {pm : ProgressManager} (h : pm.WF) :
    pm.reportPct ≤ 100 := by
  obtain ⟨h1, h2, h3⟩ := h
  apply pyRound_le_hundred
  have ht : (0 : ℚ) < (pm.total_units : ℚ) := by exact_mod_cast h1
  have hc : (pm.current : ℚ) ≤ (pm.total_units : ℚ) := by exact_mod_cast h3
  have hd : (pm.current : ℚ) / (pm.total_units : ℚ) ≤ 1 := by
    rw [div_le_one ht]; exact hc
  have := mul_le_mul_of_nonneg_right hd (by norm_num : (0:ℚ) ≤ 100)
  linarith

theorem ProgressManager.reportPct_mono {pm1 pm2 : ProgressManager}
    (ht : pm1.total_units = pm2.total_units) (h1 : 1 ≤ pm1.total_units)
    (hc : pm1.current ≤ pm2.current) : pm1.reportPct ≤ pm2.reportPct := by
  unfold ProgressManager.reportPct
  apply pyRound_mono
  rw [← ht]
  have hpos : (0 : ℚ) < (pm1.total_units : ℚ) := by exact_mod_cast h1
  have hcc : (pm1.current : ℚ) ≤ (pm2.current : ℚ) := by exact_mod_cast hc
  have hdiv : (pm1.current : ℚ) / (pm1.total_units : ℚ) ≤ (pm2.current : ℚ) / (pm1.total_units : ℚ) :=
    (div_le_div_iff_of_pos_right hpos).mpr hcc
  exact mul_le_mul_of_nonneg_right hdiv (by norm_num)

/-! Lemmas about the exact vector arithmetic. -/

theorem list_sum_nonneg {l : List ℚ} (h : ∀ x ∈ l, 0 ≤ x) : 0 ≤ l.sum := by
  induction l with
  | nil => simp
  | cons a t ih =>
    simp only [List.sum_cons]
    have ha := h a (List.mem_cons_self a t)
    have ht := ih (fun x hx => h x (List.mem_cons_of_mem a hx))
    linarith

theorem list_sum_zero_of_nonneg {l : List ℚ} (h0 : ∀ x ∈ l, 0 ≤ x) (hs : l.sum = 0) :
    ∀ x ∈ l, x = 0 := by
  induction l with
  | nil => simp
  | cons a t ih =>
    simp only [List.sum_cons] at hs
    have ha := h0 a (List.mem_cons_self a t)
    have ht : 0 ≤ t.sum := list_sum_nonneg (fun x hx => h0 x (List.mem_cons_of_mem a hx))
    have ha0 : a = 0 := by linarith
    have hts : t.sum = 0 := by linarith
    intro x hx
    rcases List.mem_cons.mp hx with hx | hx
    · exact hx ▸ ha0
    · exact ih (fun y hy => h0 y (List.mem_cons_of_mem a hy)) hts x hx

theorem list_sum_eq_zero {l : List ℚ} (h : ∀ x ∈ l, x = 0) : l.sum = 0 := by
  induction l with
  | nil => simp
  | cons a t ih =>
    simp only [List.sum_cons]
    rw [h a (List.mem_cons_self a t), ih (fun x hx => h x (List.mem_cons_of_mem a hx))]
    ring

theorem normSq_nonneg (v : QVec) : 0 ≤ normSq v :=
  list_sum_nonneg (by
    intro x hx
    obtain ⟨y, _, rfl⟩ := List.mem_map.mp hx
    exact mul_self_nonneg y)

theorem normSq_eq_zero {v : QVec} (h : normSq v = 0) : ∀ x ∈ v, x = 0 := by
  intro x hx
  have hm : x * x ∈ v.map (fun y => y * y) := List.mem_map.mpr ⟨x, hx, rfl⟩
  have := @list_sum_zero_of_nonneg (v.map (fun y => y * y))
    (by
      intro z hz
      obtain ⟨y, _, rfl⟩ := List.mem_map.mp hz
      exact mul_self_nonneg y) h (x * x) hm
  exact mul_self_eq_zero.mp this

theorem eq_of_vsub_zero {u v : QVec} (hlen : u.length = v.length)
    (h : ∀ x ∈ vsub u v, x = 0) : u = v := by
  induction u generalizing v with
  | nil =>
    cases v with
    | nil => rfl
    | cons b t => simp at hlen
  | cons a s ih =>
    cases v with
    | nil => simp at hlen
    | cons b t =>
      simp only [List.length_cons] at hlen
      have hmem : ∀ x ∈ vsub s t, x ∈ vsub (a :: s) (b :: t) := by
        intro x hx
        simp only [vsub, List.zipWith_cons_cons]
        exact List.mem_cons_of_mem _ hx
      have hab : a - b = 0 := h (a - b) (by
        simp only [vsub, List.zipWith_cons_cons]
        exact List.mem_cons_self _ _)
      have hrest : s = t := ih (by omega) (fun x hx => h x (hmem x hx))
      have : a = b := by linarith [sub_eq_zero.mp hab]
      rw [this, hrest]

theorem vzero_length (D : Nat) : (vzero D).length = D := List.length_replicate D 0

theorem vadd_length {u v : QVec} (hu : u.length = v.length) : (vadd u v).length = u.length := by
  simp [vadd, hu]

theorem vsub_mem_length (u v : QVec) : (vsub u v).length = min u.length v.length := by
  simp [vsub]

theorem vscale_length (c : ℚ) (v : QVec) : (vscale c v).length = v.length := by
  simp [vscale]

theorem vsum_length {D : Nat} {l : List QVec} (h : ∀ v ∈ l, v.length = D) :
    (vsum D l).length = D := by
  induction l with
  | nil => simp [vsum, vzero]
  | cons a t ih =>
    have ha := h a (List.mem_cons_self a t)
    have ht := ih (fun v hv => h v (List.mem_cons_of_mem a hv))
    simp only [vsum, List.foldr_cons]
    have : (vadd a (t.foldr vadd (vzero D))).length = a.length :=
      vadd_length (by rw [ha]; exact ht.symm ▸ rfl)
    rw [this, ha]

theorem rowAt_length {D : Nat} {X : List QVec} (hX : ∀ v ∈ X, v.length = D) (i : Nat) :
    (rowAt D X i).length = D := by
  unfold rowAt
  by_cases h : i < X.length
  · rw [List.getD_eq_getElem _ _ h]
    exact hX _ (List.getElem_mem h)
  · rw [List.getD_eq_default _ _ (by omega)]
    exact vzero_length D

theorem centroid_length {D : Nat} {X : List QVec} (hX : ∀ v ∈ X, v.length = D) (S : List Nat) :
    (centroid D X S).length = D := by
  unfold centroid
  rw [vscale_length]
  apply vsum_length
  intro v hv
  obtain ⟨i, _, rfl⟩ := List.mem_map.mp hv
  exact rowAt_length hX i

theorem inertiaOf_nonneg (D : Nat) (X : List QVec) (S : List Nat) : 0 ≤ inertiaOf D X S := by
  apply list_sum_nonneg
  intro x hx
  obtain ⟨i, _, rfl⟩ := List.mem_map.mp hx
  exact normSq_nonneg _

theorem rows_eq_centroid_of_inertia_zero {D : Nat} {X : List QVec} {S : List Nat}
    (hX : ∀ v ∈ X, v.length = D) (h : inertiaOf D X S = 0) :
    ∀ i ∈ S, rowAt D X i = centroid D X S := by
  intro i hi
  have hterm : normSq (vsub (rowAt D X i) (centroid D X S)) = 0 := by
    apply @list_sum_zero_of_nonneg (S.map (fun j => normSq (vsub (rowAt D X j) (centroid D X S))))
      (by
        intro z hz
        obtain ⟨j, _, rfl⟩ := List.mem_map.mp hz
        exact normSq_nonneg _) h
    exact List.mem_map.mpr ⟨i, hi, rfl⟩
  apply eq_of_vsub_zero
  · rw [rowAt_length hX, centroid_length hX]
  · exact normSq_eq_zero hterm

theorem vscale_vscale (a b : ℚ) (v : QVec) : vscale a (vscale b v) = vscale (a * b) v := by
  simp [vscale, List.map_map, Function.comp, mul_assoc]

theorem vscale_one (v : QVec) : vscale 1 v = v := by
  simp [vscale]

theorem vadd_vscale_self (n : ℚ) (v : QVec) : vadd v (vscale n v) = vscale (n + 1) v := by
  induction v with
  | nil => rfl
  | cons a t ih =>
    simp only [vadd, vscale, List.map_cons, List.zipWith_cons_cons] at *
    rw [ih]
    congr 1
    ring

theorem vscale_zero (v : QVec) : vscale 0 v = vzero v.length := by
  induction v with
  | nil => rfl
  | cons a t iht =>
    simp only [vscale, List.map_cons, List.length_cons, vzero, List.replicate] at *
    rw [iht]
    simp

theorem vsum_replicate {D : Nat} {v : QVec} (hv : v.length = D) (n : Nat) :
    vsum D (List.replicate n v) = vscale (n : ℚ) v := by
  induction n with
  | zero =>
    simp only [List.replicate, vsum, List.foldr_nil, Nat.cast_zero]
    rw [vscale_zero, hv]
  | succ m ih =>
    simp only [List.replicate, vsum, List.foldr_cons] at *
    rw [ih]
    rw [vadd_vscale_self]
    congr 1
    push_cast
    ring

theorem centroid_const {D : Nat} {X : List QVec} {S : List Nat} {v : QVec}
    (hv : v.length = D) (hS : S ≠ []) (hall : ∀ i ∈ S, rowAt D X i = v) :
    centroid D X S = v := by
  unfold centroid
  have hmap : S.map (rowAt D X) = List.replicate S.length v := by
    apply List.eq_replicate_iff.mpr
    constructor
    · simp
    · intro b hb
      obtain ⟨i, hi, rfl⟩ := List.mem_map.mp hb
      exact hall i hi
  rw [hmap, vsum_replicate hv]
  rw [vscale_vscale]
  have hlen : (S.length : ℚ) ≠ 0 := by
    have : S.length ≠ 0 := fun h => hS (List.length_eq_zero.mp h)
    exact_mod_cast this
  rw [one_div, inv_mul_cancel₀ hlen, vscale_one]

theorem normSq_vsub_self (v : QVec) : normSq (vsub v v) = 0 := by
  apply list_sum_eq_zero
  intro x hx
  obtain ⟨y, hy, rfl⟩ := List.mem_map.mp hx
  have : ∀ z ∈ vsub v v, z = 0 := by
    intro z hz
    unfold vsub at hz
    rw [List.zipWith_same] at hz
    obtain ⟨w, _, rfl⟩ := List.mem_map.mp hz
    ring
  rw [this y hy]
  ring

theorem inertiaOf_const {D : Nat} {X : List QVec} {S : List Nat} {v : QVec}
    (hv : v.length = D) (hS : S ≠ []) (hall : ∀ i ∈ S, rowAt D X i = v) :
    inertiaOf D X S = 0 := by
  unfold inertiaOf
  apply list_sum_eq_zero
  intro x hx
  obtain ⟨i, hi, rfl⟩ := List.mem_map.mp hx
  rw [hall i hi, centroid_const hv hS hall]
  exact normSq_vsub_self v

theorem inertiaOf_pos {D : Nat} {X : List QVec} {S : List Nat} {i j : Nat}
    (hX : ∀ v ∈ X, v.length = D) (hi : i ∈ S) (hj : j ∈ S)
    (hij : rowAt D X i ≠ rowAt D X j) : 0 < inertiaOf D X S := by
  rcases lt_or_eq_of_le (inertiaOf_nonneg D X S) with h | h
  · exact h
  · exfalso
    have hzero := rows_eq_centroid_of_inertia_zero hX h.symm
    exact hij ((hzero i hi).trans (hzero j hj).symm)

theorem two_le_length_of_hetero {D : Nat} {X : List QVec} {S : List Nat} {i j : Nat}
    (hi : i ∈ S) (hj : j ∈ S) (hij : rowAt D X i ≠ rowAt D X j) : 2 ≤ S.length := by
  have hne : i ≠ j := fun h => hij (h ▸ rfl)
  rcases S with _ | ⟨a, _ | ⟨b, t⟩⟩
  · simp at hi
  · simp at hi hj
    exact absurd (hi.trans hj.symm) hne
  · simp [Nat.le_add_left]

/-! Lemmas about the bisecting engine. -/

theorem worstIdx_lt {leaves : List ClusterNode} (h : leaves ≠ []) :
    worstIdx leaves < leaves.length := by
  induction leaves with
  | nil => exact absurd rfl h
  | cons c rest ih =>
    by_cases hr : rest.isEmpty
    · simp [worstIdx, hr]
    · have hrne : rest ≠ [] := by
        cases rest with
        | nil => simp at hr
        | cons a t => simp
      have := ih hrne
      simp only [worstIdx, hr, if_false, List.length_cons]
      split_ifs <;> omega

theorem worstIdx_score_ge (leaves : List ClusterNode) (j : Nat) (hj : j < leaves.length) :
    (leaves.getD j nodeDefault).score ≤ (leaves.getD (worstIdx leaves) nodeDefault).score := by
  induction leaves generalizing j with
  | nil => simp at hj
  | cons c rest ih =>
    cases rest with
    | nil =>
      simp only [List.length_cons, List.length_nil, Nat.lt_succ_iff, Nat.le_zero] at hj
      subst hj
      simp [worstIdx]
    | cons c2 t =>
      rw [show worstIdx (c :: c2 :: t) =
        (if c.score < ((c2 :: t).getD (worstIdx (c2 :: t)) nodeDefault).score
          then worstIdx (c2 :: t) + 1 else 0) from by simp [worstIdx]]
      split_ifs with hsc
      · rcases j with _ | i
        · simpa using le_of_lt hsc
        · simp only [List.getD_cons_succ]
          exact ih i (by simpa using hj)
      · push_neg at hsc
        rcases j with _ | i
        · simp
        · simp only [List.getD_cons_succ, List.getD_cons_zero]
          exact le_trans (ih i (by simpa using hj)) hsc

theorem splitSelected_ok {D : Nat} {X : List QVec} {f : List Nat → List Nat × List Nat}
    {leaves ls2 : List ClusterNode} (h : splitSelected D X f leaves = .ok ls2) :
    2 ≤ (leaves.getD (worstIdx leaves) nodeDefault).indices.length ∧
    ls2 = leaves.take (worstIdx leaves) ++
      [⟨(f (leaves.getD (worstIdx leaves) nodeDefault).indices).1,
        centroid D X (f (leaves.getD (worstIdx leaves) nodeDefault).indices).1,
        inertiaOf D X (f (leaves.getD (worstIdx leaves) nodeDefault).indices).1⟩,
       ⟨(f (leaves.getD (worstIdx leaves) nodeDefault).indices).2,
        centroid D X (f (leaves.getD (worstIdx leaves) nodeDefault).indices).2,
        inertiaOf D X (f (leaves.getD (worstIdx leaves) nodeDefault).indices).2⟩] ++
      leaves.drop (worstIdx leaves + 1) := by
  simp only [splitSelected] at h
  split_ifs at h with hlen
  simp only [Except.ok.injEq] at h
  exact ⟨by omega, h.symm⟩

theorem splitSelected_error {D : Nat} {X : List QVec} {f : List Nat → List Nat × List Nat}
    {leaves : List ClusterNode}
    (h : (leaves.getD (worstIdx leaves) nodeDefault).indices.length < 2) :
    splitSelected D X f leaves = .error emptyClusterMsg := by
  simp only [splitSelected]
  rw [if_pos h]

theorem take_getD_drop {α : Type} (l : List α) (j : Nat) (d : α) (hj : j < l.length) :
    l = l.take j ++ l.getD j d :: l.drop (j + 1) := by
  conv_lhs => rw [← List.take_append_drop j l]
  congr 1
  rw [List.getD_eq_getElem _ _ hj]
  exact List.drop_eq_getElem_cons hj

theorem splitSelected_ok_ne {D : Nat} {X : List QVec} {f : List Nat → List Nat × List Nat}
    {leaves ls2 : List ClusterNode} (h : splitSelected D X f leaves = .ok ls2) :
    leaves ≠ [] := by
  obtain ⟨h2, _⟩ := splitSelected_ok h
  intro hnil
  subst hnil
  simp [nodeDefault, List.getD] at h2

theorem splitSelected_ok_len {D : Nat} {X : List QVec} {f : List Nat → List Nat × List Nat}
    {leaves ls2 : List ClusterNode} (h : splitSelected D X f leaves = .ok ls2) :
    ls2.length = leaves.length + 1 := by
  have hne := splitSelected_ok_ne h
  have hj := worstIdx_lt hne
  obtain ⟨h2, rfl⟩ := splitSelected_ok h
  simp only [List.length_append, List.length_take, List.length_cons, List.length_drop,
    List.length_nil]
  omega

theorem splitSelected_ok_perm {D : Nat} {X : List QVec} {f : List Nat → List Nat × List Nat}
    (hf : ValidSplitter f) {leaves ls2 : List ClusterNode}
    (h : splitSelected D X f leaves = .ok ls2) :
    ((ls2.map ClusterNode.indices).flatten).Perm ((leaves.map ClusterNode.indices).flatten) := by
  have hne := splitSelected_ok_ne h
  have hj := worstIdx_lt hne
  obtain ⟨h2, rfl⟩ := splitSelected_ok h
  obtain ⟨ha, hb, hperm⟩ := hf _ h2
  conv_rhs => rw [take_getD_drop leaves (worstIdx leaves) nodeDefault hj]
  simp only [List.map_append, List.map_cons, List.flatten_append, List.flatten_cons,
    List.append_nil, List.flatten_nil]
  rw [List.perm_iff_count]
  intro x
  have hc := hperm.count_eq x
  simp only [List.count_append, List.map_nil, List.flatten_nil, List.count_nil] at hc ⊢
  omega

theorem splitSelected_ok_mem {D : Nat} {X : List QVec} {f : List Nat → List Nat × List Nat}
    {leaves ls2 : List ClusterNode} (h : splitSelected D X f leaves = .ok ls2) :
    ∀ n ∈ ls2, n ∈ leaves ∨
      (n.center = centroid D X n.indices ∧ n.score = inertiaOf D X n.indices ∧
        (n.indices = (f (leaves.getD (worstIdx leaves) nodeDefault).indices).1 ∨
         n.indices = (f (leaves.getD (worstIdx leaves) nodeDefault).indices).2)) := by
  obtain ⟨h2, rfl⟩ := splitSelected_ok h
  intro n hn
  rcases List.mem_append.mp hn with hn1 | hn2
  · rcases List.mem_append.mp hn1 with hn3 | hn4
    · exact Or.inl (List.take_subset _ _ hn3)
    · rcases List.mem_cons.mp hn4 with rfl | hn5
      · exact Or.inr ⟨rfl, rfl, Or.inl rfl⟩
      · rcases List.mem_cons.mp hn5 with rfl | hn6
        · exact Or.inr ⟨rfl, rfl, Or.inr rfl⟩
        · simp at hn6
  · exact Or.inl (List.drop_subset _ _ hn2)

theorem splitStep_inv {D : Nat} {X : List QVec} {f : List Nat → List Nat × List Nat}
    (hX : ∀ v ∈ X, v.length = D) (hf : ValidSplitter f) {leaves ls2 : List ClusterNode}
    (hInv : LeavesInv D X leaves) (h : splitSelected D X f leaves = .ok ls2) :
    LeavesInv D X ls2 ∧ ls2.length = leaves.length + 1 ∧
    (ScoresAreInertias D X leaves → ScoresAreInertias D X ls2) := by
  obtain ⟨hne, hcen, hperm⟩ := hInv
  obtain ⟨h2, _⟩ := splitSelected_ok h
  obtain ⟨ha, hb, habperm⟩ := hf _ h2
  have hmem := splitSelected_ok_mem h
  refine ⟨⟨?_, ?_, ?_⟩, splitSelected_ok_len h, ?_⟩
  · intro c hc
    rcases hmem c hc with hold | ⟨_, _, hch⟩
    · exact hne c hold
    · rcases hch with hch | hch <;> rw [hch] <;> assumption
  · intro c hc
    rcases hmem c hc with hold | ⟨hc1, _, _⟩
    · exact hcen c hold
    · rw [hc1]
      exact centroid_length hX _
  · exact (splitSelected_ok_perm hf h).trans hperm
  · intro hScores c hc
    rcases hmem c hc with hold | ⟨_, hc2, _⟩
    · exact hScores c hold
    · exact hc2

theorem splitSelected_singleton_scores {D : Nat} {X : List QVec}
    {f : List Nat → List Nat × List Nat} {leaves ls2 : List ClusterNode}
    (hlen1 : leaves.length = 1) (h : splitSelected D X f leaves = .ok ls2) :
    ScoresAreInertias D X ls2 := by
  obtain ⟨c, rfl⟩ := List.length_eq_one.mp hlen1
  obtain ⟨h2, rfl⟩ := splitSelected_ok h
  have hw : worstIdx [c] = 0 := by simp [worstIdx]
  rw [hw]
  intro n hn
  simp only [List.take_zero, List.drop_succ_cons, List.drop_nil, List.nil_append,
    List.append_nil] at hn
  rcases List.mem_cons.mp hn with rfl | hn2
  · rfl
  · rcases List.mem_cons.mp hn2 with rfl | hn3
    · rfl
    · simp at hn3

theorem two_le_of_inertia_pos {D : Nat} {X : List QVec} {S : List Nat}
    (hX : ∀ v ∈ X, v.length = D) (h : 0 < inertiaOf D X S) : 2 ≤ S.length := by
  rcases S with _ | ⟨i, _ | ⟨j, t⟩⟩
  · simp [inertiaOf] at h
  · exfalso
    have hz : inertiaOf D X [i] = 0 := by
      apply @inertiaOf_const D X [i] (rowAt D X i) (rowAt_length hX i) (by simp)
      intro m hm
      rw [List.mem_singleton.mp hm]
    linarith
  · simp only [List.length_cons]
    omega

theorem iterSplits_ok_perm_len {D : Nat} {X : List QVec} {f : List Nat → List Nat × List Nat}
    (hf : ValidSplitter f) (n : Nat) :
    ∀ {leaves ls2 : List ClusterNode}, iterSplits D X f n leaves = .ok ls2 →
      ((ls2.map ClusterNode.indices).flatten).Perm ((leaves.map ClusterNode.indices).flatten) ∧
      ls2.length = leaves.length + n := by
  induction n with
  | zero =>
    intro leaves ls2 h
    simp only [iterSplits, Except.ok.injEq] at h
    subst h
    exact ⟨List.Perm.refl _, rfl⟩
  | succ m ih =>
    intro leaves ls2 h
    simp only [iterSplits] at h
    cases hs : splitSelected D X f leaves with
    | error e => rw [hs] at h; exact absurd h (by simp)
    | ok mid =>
      rw [hs] at h
      obtain ⟨hperm, hlen⟩ := ih h
      have hperm2 := splitSelected_ok_perm hf hs
      have hlen2 := splitSelected_ok_len hs
      exact ⟨hperm.trans hperm2, by omega⟩

theorem exists_hetero_leaf {D : Nat} {X : List QVec} {leaves : List ClusterNode}
    (hperm : ((leaves.map ClusterNode.indices).flatten).Perm (List.range X.length))
    (hcard : leaves.length < X.dedup.length) :
    ∃ c ∈ leaves, ∃ i ∈ c.indices, ∃ j ∈ c.indices, rowAt D X i ≠ rowAt D X j := by
  by_contra hmono
  push_neg at hmono
  have hsub : X.dedup ⊆
      leaves.filterMap (fun c => c.indices.head?.map (fun i => rowAt D X i)) := by
    intro v hv
    have hvX : v ∈ X := List.mem_dedup.mp hv
    obtain ⟨i, hiN, hXi⟩ := List.mem_iff_getElem.mp hvX
    have hiF : i ∈ (leaves.map ClusterNode.indices).flatten :=
      hperm.mem_iff.mpr (List.mem_range.mpr hiN)
    obtain ⟨L, hL, hiL⟩ := List.mem_flatten.mp hiF
    obtain ⟨c, hc, rfl⟩ := List.mem_map.mp hL
    obtain ⟨h0, t0, hcons⟩ : ∃ h0 t0, c.indices = h0 :: t0 := by
      cases hci : c.indices with
      | nil => rw [hci] at hiL; simp at hiL
      | cons a t => exact ⟨a, t, rfl⟩
    have hh0mem : h0 ∈ c.indices := by rw [hcons]; exact List.mem_cons_self _ _
    have hrow : rowAt D X h0 = v := by
      rw [hmono c hc h0 hh0mem i hiL]
      unfold rowAt
      rw [List.getD_eq_getElem _ _ hiN]
      exact hXi
    apply List.mem_filterMap.mpr
    refine ⟨c, hc, ?_⟩
    rw [hcons]
    simp [hrow]
  have h1 : X.dedup.length ≤
      (leaves.filterMap (fun c => c.indices.head?.map (fun i => rowAt D X i))).length :=
    (List.subperm_of_subset X.nodup_dedup hsub).length_le
  have h2 : (leaves.filterMap (fun c => c.indices.head?.map (fun i => rowAt D X i))).length ≤
      leaves.length := List.length_filterMap_le _ _
  omega

theorem getD_mem {α : Type} {l : List α} {j : Nat} (d : α) (hj : j < l.length) :
    l.getD j d ∈ l := by
  rw [List.getD_eq_getElem _ _ hj]
  exact List.getElem_mem hj

theorem iterSplits_success {D : Nat} {X : List QVec} {f : List Nat → List Nat × List Nat}
    (hX : ∀ v ∈ X, v.length = D) (hf : ValidSplitter f) (n : Nat) :
    ∀ (leaves : List ClusterNode), LeavesInv D X leaves →
      (ScoresAreInertias D X leaves ∨ leaves.length = 1) →
      leaves.length + n ≤ X.dedup.length →
      ∃ ls2, iterSplits D X f n leaves = .ok ls2 ∧ LeavesInv D X ls2 ∧
        ls2.length = leaves.length + n := by
  induction n with
  | zero =>
    intro leaves hInv _ _
    exact ⟨leaves, rfl, hInv, rfl⟩
  | succ m ih =>
    intro leaves hInv hStart hLen
    have hdX : X.dedup.length ≤ X.length := X.dedup_sublist.length_le
    have hne : leaves ≠ [] := by
      intro hnil
      subst hnil
      have hXnil : X.length = 0 := by
        have hlen := hInv.2.2.length_eq
        simp only [List.map_nil, List.flatten_nil, List.length_nil, List.length_range] at hlen
        omega
      have hd0 : X.dedup.length = 0 := by
        have := X.dedup_sublist.length_le
        omega
      simp only [List.length_nil, Nat.zero_add] at hLen
      omega
    have hjlt := worstIdx_lt hne
    have hsel2 : 2 ≤ (leaves.getD (worstIdx leaves) nodeDefault).indices.length := by
      rcases hStart with hScores | hOne
      · have hcard : leaves.length < X.dedup.length := by omega
        obtain ⟨c, hc, i, hi, j, hj, hij⟩ := exists_hetero_leaf hInv.2.2 hcard
        have hcpos : 0 < inertiaOf D X c.indices := inertiaOf_pos hX hi hj hij
        obtain ⟨idx, hidx, hcidx⟩ := List.mem_iff_getElem.mp hc
        have hscore_le := worstIdx_score_ge leaves idx hidx
        rw [List.getD_eq_getElem _ _ hidx, hcidx] at hscore_le
        have hcscore : c.score = inertiaOf D X c.indices := hScores c hc
        have hselmem : leaves.getD (worstIdx leaves) nodeDefault ∈ leaves :=
          getD_mem nodeDefault hjlt
        have hselscore := hScores _ hselmem
        have hselpos : 0 < inertiaOf D X (leaves.getD (worstIdx leaves) nodeDefault).indices := by
          rw [← hselscore]
          calc (0:ℚ) < c.score := by rw [hcscore]; exact hcpos
            _ ≤ _ := hscore_le
        exact two_le_of_inertia_pos hX hselpos
      · obtain ⟨c, rfl⟩ := List.length_eq_one.mp hOne
        have hw : worstIdx [c] = 0 := by simp [worstIdx]
        rw [hw]
        simp only [List.getD_cons_zero]
        have hclen : c.indices.length = X.length := by
          have := hInv.2.2.length_eq
          simpa using this
        omega
    have hstep : ∃ mid, splitSelected D X f leaves = .ok mid := by
      simp only [splitSelected]
      rw [if_neg (by omega)]
      exact ⟨_, rfl⟩
    obtain ⟨mid, hmid⟩ := hstep
    obtain ⟨hInvMid, hLenMid, hScoreImp⟩ := splitStep_inv hX hf hInv hmid
    have hStartMid : ScoresAreInertias D X mid ∨ mid.length = 1 := by
      rcases hStart with hScores | hOne
      · exact Or.inl (hScoreImp hScores)
      · exact Or.inl (splitSelected_singleton_scores hOne hmid)
    obtain ⟨ls2, hrun, hInv2, hLen2⟩ := ih mid hInvMid hStartMid (by omega)
    refine ⟨ls2, ?_, hInv2, by omega⟩
    simp only [iterSplits]
    rw [hmid]
    exact hrun

/-! Lemmas about the final label assignment. -/

theorem foldl_set_length (idxs : List Nat) (v : Int) :
    ∀ ls : List Int, (idxs.foldl (fun a q => a.set q v) ls).length = ls.length := by
  induction idxs with
  | nil => intro ls; rfl
  | cons q t ih =>
    intro ls
    simp only [List.foldl_cons]
    rw [ih]
    exact List.length_set ls q v

theorem foldl_set_getD (idxs : List Nat) (v : Int) :
    ∀ (ls : List Int) (p : Nat), p < ls.length →
      (idxs.foldl (fun a q => a.set q v) ls).getD p 0 =
        if p ∈ idxs then v else ls.getD p 0 := by
  induction idxs with
  | nil => intro ls p _; simp
  | cons q t ih =>
    intro ls p hp
    simp only [List.foldl_cons]
    rw [ih (ls.set q v) p (by rw [List.length_set]; exact hp)]
    by_cases hpt : p ∈ t
    · simp [hpt, List.mem_cons]
    · have hgd : (ls.set q v).getD p 0 = if q = p then v else ls.getD p 0 := by
        by_cases hqp : q = p
        · subst hqp
          simp [List.getD_eq_getElem _ _ hp, List.getElem_set_self, hp]
        · simp [List.getD_eq_getElem?_getD, List.getElem?_set_ne hqp, hqp]
      rw [if_neg hpt, hgd]
      by_cases hqp : q = p
      · subst hqp
        simp
      · have : p ∉ q :: t := by
          intro hm
          rcases List.mem_cons.mp hm with rfl | hm2
          · exact hqp rfl
          · exact hpt hm2
        simp [this, hqp]

theorem writeLeaf_length (ls : List Int) (i : Nat) (c : ClusterNode) :
    (writeLeaf ls i c).length = ls.length :=
  foldl_set_length c.indices (Int.ofNat i) ls

theorem writeLeaf_getD (ls : List Int) (i : Nat) (c : ClusterNode) (p : Nat) (hp : p < ls.length) :
    (writeLeaf ls i c).getD p 0 = if p ∈ c.indices then Int.ofNat i else ls.getD p 0 :=
  foldl_set_getD c.indices (Int.ofNat i) ls p hp

theorem assignFrom_length (leaves : List ClusterNode) :
    ∀ (ls : List Int) (i : Nat), (assignFrom ls i leaves).length = ls.length := by
  induction leaves with
  | nil => intro ls i; rfl
  | cons c rest ih =>
    intro ls i
    simp only [assignFrom]
    rw [ih, writeLeaf_length]

theorem assignFrom_getD_notmem (leaves : List ClusterNode) :
    ∀ (ls : List Int) (i : Nat) (p : Nat), p < ls.length →
      (∀ c ∈ leaves, p ∉ c.indices) →
      (assignFrom ls i leaves).getD p 0 = ls.getD p 0 := by
  induction leaves with
  | nil => intro ls i p _ _; rfl
  | cons c rest ih =>
    intro ls i p hp hnot
    simp only [assignFrom]
    rw [ih _ _ _ (by rw [writeLeaf_length]; exact hp)
      (fun d hd => hnot d (List.mem_cons_of_mem c hd))]
    rw [writeLeaf_getD _ _ _ _ hp, if_neg (hnot c (List.mem_cons_self c rest))]

theorem assignFrom_getD_mem (leaves : List ClusterNode) :
    ∀ (ls : List Int) (i : Nat) (j : Nat) (p : Nat), p < ls.length →
      ((leaves.map ClusterNode.indices).flatten).Nodup →
      j < leaves.length → p ∈ (leaves.getD j nodeDefault).indices →
      (assignFrom ls i leaves).getD p 0 = Int.ofNat (i + j) := by
  induction leaves with
  | nil => intro ls i j p _ _ hj _; simp at hj
  | cons c rest ih =>
    intro ls i j p hp hnd hj hmem
    simp only [assignFrom]
    rcases j with _ | j2
    · simp only [List.getD_cons_zero] at hmem
      have hnotrest : ∀ d ∈ rest, p ∉ d.indices := by
        intro d hd hpd
        simp only [List.map_cons, List.flatten_cons] at hnd
        have h1 := (List.nodup_append.mp hnd).2.2
        exact h1 hmem (List.mem_flatten.mpr ⟨d.indices, List.mem_map.mpr ⟨d, hd, rfl⟩, hpd⟩)
      rw [assignFrom_getD_notmem rest _ _ _ (by rw [writeLeaf_length]; exact hp) hnotrest]
      rw [writeLeaf_getD _ _ _ _ hp, if_pos hmem]
      simp
    · simp only [List.getD_cons_succ] at hmem
      have hndrest : ((rest.map ClusterNode.indices).flatten).Nodup := by
        simp only [List.map_cons, List.flatten_cons] at hnd
        exact (List.nodup_append.mp hnd).2.1
      rw [ih _ _ _ _ (by rw [writeLeaf_length]; exact hp) hndrest
        (by simpa using hj) hmem]
      congr 1
      omega

/-! Concrete splitters and concrete evaluation facts used by witnesses and
counterexamples. -/

theorem headSplitter_valid : ValidSplitter headSplitter := by
  intro l hl
  refine ⟨?_, ?_, ?_⟩
  · cases l with
    | nil => simp at hl
    | cons a t => simp [headSplitter]
  · cases l with
    | nil => simp at hl
    | cons a t =>
      simp only [headSplitter, List.drop_succ_cons, List.drop_zero, ne_eq]
      intro hnil
      subst hnil
      simp at hl
  · simp only [headSplitter]
    rw [List.take_append_drop]

theorem dupSplitter_valid : ValidSplitter dupSplitter := by
  intro l hl
  unfold dupSplitter
  split_ifs with h
  · subst h
    exact ⟨by simp, by simp, List.Perm.refl _⟩
  · exact headSplitter_valid l hl

theorem inertia_X3dup_first : inertiaOf 1 X3dup [0] = 0 := by
  norm_num [inertiaOf, X3dup, rowAt, centroid, vsum, vadd, vzero, vscale, vsub, normSq]

theorem inertia_X3dup_pair : inertiaOf 1 X3dup [1, 2] = 0 := by
  norm_num [inertiaOf, X3dup, rowAt, centroid, vsum, vadd, vzero, vscale, vsub, normSq]

theorem step1_X3dup : splitSelected 1 X3dup dupSplitter [rootNode 1 X3dup] = .ok X3dupLeaves1 :=
  rfl

theorem worstIdx_X3dupLeaves1 : worstIdx X3dupLeaves1 = 0 := by
  simp [worstIdx, X3dupLeaves1, inertia_X3dup_first, inertia_X3dup_pair]

theorem step2_X3dup : splitSelected 1 X3dup dupSplitter X3dupLeaves1 = .error emptyClusterMsg := by
  apply splitSelected_error
  rw [worstIdx_X3dupLeaves1]
  simp [X3dupLeaves1]

theorem X2distinct_dedup_length : X2distinct.dedup.length = 2 := by
  have h1 : ([0] : QVec) ∉ [([1] : QVec)] := by norm_num
  have h2 : X2distinct.dedup = [[0], [1]] := by
    simp [X2distinct, List.dedup_cons_of_not_mem, h1]
  rw [h2]
  rfl

/-! Claim theorems for the clustering engine. -/

/-- C1, counterexample: the claim asserts that `fit` succeeds and returns a
full labelling for every matrix with `1 ≤ k ≤ N`. On the 3-sample matrix
`[[0], [1], [1]]` with `k = 3` (so `k ≤ N`) and an admissible 2-means run that
splits the root into the optimal partition `{0} | {1, 2}`, both leaves then
have inertia 0, the tie makes the engine select the singleton leaf `{0}`, and
the second split fails with the empty-cluster error instead of returning
labels. -/
theorem claim_c1_counterexample :
    (1 ≤ X3dup.length ∧ 3 ≤ X3dup.length ∧ ValidSplitter dupSplitter) ∧
    fitVerbose 1 X3dup 3 dupSplitter = .error emptyClusterMsg := by
  refine ⟨⟨by norm_num [X3dup], by norm_num [X3dup], dupSplitter_valid⟩, ?_⟩
  have e1 : iterSplits 1 X3dup dupSplitter 2 [rootNode 1 X3dup] =
      iterSplits 1 X3dup dupSplitter 1 X3dupLeaves1 := by
    show (match splitSelected 1 X3dup dupSplitter [rootNode 1 X3dup] with
      | .error e => Except.error e
      | .ok ls2 => iterSplits 1 X3dup dupSplitter 1 ls2) =
      iterSplits 1 X3dup dupSplitter 1 X3dupLeaves1
    rw [step1_X3dup]
  have e2 : iterSplits 1 X3dup dupSplitter 1 X3dupLeaves1 = .error emptyClusterMsg := by
    show (match splitSelected 1 X3dup dupSplitter X3dupLeaves1 with
      | .error e => Except.error e
      | .ok ls2 => iterSplits 1 X3dup dupSplitter 0 ls2) = .error emptyClusterMsg
    rw [step2_X3dup]
  show (match iterSplits 1 X3dup dupSplitter 2 [rootNode 1 X3dup] with
    | .error e => Except.error e
    | .ok leaves => Except.ok (FitResult.mk (assignLabels X3dup.length leaves)
        (leaves.map ClusterNode.center)
        (fitInertia 1 X3dup (leaves.map ClusterNode.center)
          (assignLabels X3dup.length leaves)))) = .error emptyClusterMsg
  rw [e1, e2]

theorem root_flatten (D : Nat) (X : List QVec) :
    (([rootNode D X].map ClusterNode.indices).flatten) = List.range X.length := by
  simp [rootNode]

/-- C1 (amended): for every feature matrix `X` with `N ≥ 1` rows of dimension
`D ≥ 1`, every `k` with `1 ≤ k` and `k` at most the number of distinct rows of
`X` (so that no split step can select a one-member leaf), and every admissible
2-means splitter, `fit` succeeds and returns a labels array of length `N`
whose values are exactly the integers `0..k-1` with every value appearing at
least once, a centers matrix with exactly `k` rows of dimension `D`, and a
nonnegative inertia. -/
theorem claim_c1_fit_contract (D k : Nat) (X : List QVec)
    (f : List Nat → List Nat × List Nat)
    (hX : ∀ v ∈ X, v.length = D) (hf : ValidSplitter f)
    (hD : 1 ≤ D) (hN : 1 ≤ X.length) (hk1 : 1 ≤ k) (hk : k ≤ X.dedup.length) :
    ∃ r : FitResult, fitVerbose D X k f = .ok r ∧
      r.labels.length = X.length ∧
      (∀ p, p < X.length → 0 ≤ r.labels.getD p 0 ∧ r.labels.getD p 0 < (k : Int)) ∧
      (∀ i, i < k → (Int.ofNat i) ∈ r.labels) ∧
      r.centers.length = k ∧ (∀ c ∈ r.centers, c.length = D) ∧
      0 ≤ r.inertia := by
  have hInv0 : LeavesInv D X [rootNode D X] := by
    refine ⟨?_, ?_, ?_⟩
    · intro c hc
      rw [List.mem_singleton.mp hc]
      simp only [rootNode, ne_eq]
      intro hnil
      rw [List.range_eq_nil] at hnil
      omega
    · intro c hc
      rw [List.mem_singleton.mp hc]
      exact centroid_length hX _
    · rw [root_flatten]
  obtain ⟨leaves, hok, hInvF, hlenF⟩ :=
    iterSplits_success hX hf (k - 1) [rootNode D X] hInv0 (Or.inr rfl)
      (by simp only [List.length_singleton]; omega)
  have hleavesk : leaves.length = k := by
    simp only [List.length_singleton] at hlenF
    omega
  have hnd : ((leaves.map ClusterNode.indices).flatten).Nodup :=
    (hInvF.2.2.nodup_iff).mpr (List.nodup_range _)
  have hlablen : (assignLabels X.length leaves).length = X.length := by
    unfold assignLabels
    rw [assignFrom_length, List.length_replicate]
  refine ⟨⟨assignLabels X.length leaves, leaves.map ClusterNode.center,
    fitInertia D X (leaves.map ClusterNode.center) (assignLabels X.length leaves)⟩,
    ?_, hlablen, ?_, ?_, ?_, ?_, ?_⟩
  · simp only [fitVerbose]
    rw [hok]
  · intro p hp
    have hpf : p ∈ (leaves.map ClusterNode.indices).flatten :=
      hInvF.2.2.mem_iff.mpr (List.mem_range.mpr hp)
    obtain ⟨L, hL, hpL⟩ := List.mem_flatten.mp hpf
    obtain ⟨c, hc, rfl⟩ := List.mem_map.mp hL
    obtain ⟨j, hj, hcj⟩ := List.mem_iff_getElem.mp hc
    have hmemj : p ∈ (leaves.getD j nodeDefault).indices := by
      rw [List.getD_eq_getElem _ _ hj, hcj]
      exact hpL
    have := assignFrom_getD_mem leaves (List.replicate X.length (-1)) 0 j p
      (by rw [List.length_replicate]; exact hp) hnd hj hmemj
    unfold assignLabels
    rw [this]
    constructor
    · exact Int.ofNat_nonneg _
    · have hjk : 0 + j < k := by omega
      calc Int.ofNat (0 + j) < Int.ofNat k := Int.ofNat_lt.mpr hjk
        _ = (k : Int) := rfl
  · intro i hi
    have hik : i < leaves.length := by omega
    have hcmem : leaves.getD i nodeDefault ∈ leaves := getD_mem nodeDefault hik
    obtain ⟨p, hp⟩ := List.exists_mem_of_ne_nil _ (hInvF.1 _ hcmem)
    have hpf : p ∈ (leaves.map ClusterNode.indices).flatten :=
      List.mem_flatten.mpr ⟨(leaves.getD i nodeDefault).indices,
        List.mem_map.mpr ⟨_, hcmem, rfl⟩, hp⟩
    have hpN : p < X.length := List.mem_range.mp (hInvF.2.2.mem_iff.mp hpf)
    have hval := assignFrom_getD_mem leaves (List.replicate X.length (-1)) 0 i p
      (by rw [List.length_replicate]; exact hpN) hnd hik hp
    have hplen : p < (assignLabels X.length leaves).length := by rw [hlablen]; exact hpN
    have : (assignLabels X.length leaves).getD p 0 ∈ assignLabels X.length leaves :=
      getD_mem 0 hplen
    unfold assignLabels at this ⊢
    rw [hval] at this
    simpa using this
  · rw [List.length_map]
    exact hleavesk
  · intro c hc
    obtain ⟨d, hd, rfl⟩ := List.mem_map.mp hc
    exact hInvF.2.1 d hd
  · apply list_sum_nonneg
    intro x hx
    obtain ⟨p, _, rfl⟩ := List.mem_map.mp hx
    exact normSq_nonneg _

/-- C1 witness: on the 2-sample matrix `[[0], [1]]` with `k = 2` and the
head-versus-rest splitter, the amended contract holds. -/
theorem claim_c1_fit_contract_witness :
    2 ≤ X2distinct.dedup.length ∧
    ∃ r : FitResult, fitVerbose 1 X2distinct 2 headSplitter = .ok r ∧
      r.labels.length = X2distinct.length ∧
      (∀ p, p < X2distinct.length → 0 ≤ r.labels.getD p 0 ∧ r.labels.getD p 0 < (2 : Int)) ∧
      (∀ i, i < 2 → (Int.ofNat i) ∈ r.labels) ∧
      r.centers.length = 2 ∧ (∀ c ∈ r.centers, c.length = 1) ∧
      0 ≤ r.inertia :=
  ⟨le_of_eq X2distinct_dedup_length.symm,
    claim_c1_fit_contract 1 2 X2distinct headSplitter (by decide) headSplitter_valid
      (by decide) (by decide) (by decide) (le_of_eq X2distinct_dedup_length.symm)⟩

/-- C2: at every intermediate step of `fit` — after the root is created
(`j = 0`) and after each of the first `j` successful splits — the leaf index
sets of the bisecting tree partition the full index set `{0..N-1}` with no
overlaps and no gaps (their concatenation is a permutation of `range N`), and
the number of leaves is exactly `j + 1`: it starts at 1 and grows by exactly
one per successful split. -/
theorem claim_c2_partition_invariant (D : Nat) (X : List QVec)
    (f : List Nat → List Nat × List Nat) (j : Nat) (leaves : List ClusterNode)
    (hf : ValidSplitter f)
    (h : iterSplits D X f j [rootNode D X] = .ok leaves) :
    ((leaves.map ClusterNode.indices).flatten).Perm (List.range X.length) ∧
    leaves.length = j + 1 := by
  obtain ⟨hperm, hlen⟩ := iterSplits_ok_perm_len hf j h
  constructor
  · rw [root_flatten] at hperm
    exact hperm
  · simp only [List.length_singleton] at hlen
    omega

/-- C2 witness: the invariant checked on `[[0], [1]]` after one split. -/
theorem claim_c2_partition_invariant_witness :
    ValidSplitter headSplitter ∧
    ((X2Leaves1.map ClusterNode.indices).flatten).Perm (List.range X2distinct.length) ∧
    X2Leaves1.length = 1 + 1 :=
  ⟨headSplitter_valid,
    claim_c2_partition_invariant 1 X2distinct headSplitter 1 X2Leaves1 headSplitter_valid rfl⟩

/-- C5, counterexample: the claim says a selected leaf with fewer than 2
members is detected and recovered from by skipping to the next-worst
candidate. In the state actually reached by `fit` on `[[0], [1], [1]]` after
one split, the selected (worst-score) leaf `{0}` has one member while the
other leaf `{1, 2}` has two and could be split; the engine nevertheless fails
with the empty-cluster error instead of skipping, and no
`ClusteringUnderfilledError` exists anywhere in the code. -/
theorem claim_c5_counterexample :
    iterSplits 1 X3dup dupSplitter 1 [rootNode 1 X3dup] = .ok X3dupLeaves1 ∧
    2 ≤ (X3dupLeaves1.getD 1 nodeDefault).indices.length ∧
    splitSelected 1 X3dup dupSplitter X3dupLeaves1 = .error emptyClusterMsg := by
  refine ⟨?_, by norm_num [X3dupLeaves1], step2_X3dup⟩
  show (match splitSelected 1 X3dup dupSplitter [rootNode 1 X3dup] with
    | .error e => Except.error e
    | .ok ls2 => iterSplits 1 X3dup dupSplitter 0 ls2) = .ok X3dupLeaves1
  rw [step1_X3dup]
  rfl

/-- C5 (amended): `fit_verbose` performs no `EmptyClusterError` recovery at
all: whenever the selected worst leaf has fewer than 2 members, the split step
fails immediately with the empty-cluster error, and the remaining loop
propagates that error out of `fit` — there is no skipping to the next-worst
candidate and no `ClusteringUnderfilledError`; `fit` either reaches `k` leaves
or surfaces the raw split failure. -/
theorem claim_c5_no_recovery (D : Nat) (X : List QVec)
    (f : List Nat → List Nat × List Nat) (leaves : List ClusterNode) (n : Nat)
    (h : (leaves.getD (worstIdx leaves) nodeDefault).indices.length < 2) :
    splitSelected D X f leaves = .error emptyClusterMsg ∧
    iterSplits D X f (n + 1) leaves = .error emptyClusterMsg := by
  have he : splitSelected D X f leaves = .error emptyClusterMsg := splitSelected_error h
  refine ⟨he, ?_⟩
  show (match splitSelected D X f leaves with
    | .error e => Except.error e
    | .ok ls2 => iterSplits D X f n ls2) = .error emptyClusterMsg
  rw [he]

/-- C5 witness: a singleton leaf triggers the failure. -/
theorem claim_c5_no_recovery_witness :
    (([⟨[5], [0], 0⟩] : List ClusterNode).getD
        (worstIdx [⟨[5], [0], 0⟩]) nodeDefault).indices.length < 2 ∧
    splitSelected 1 X2distinct headSplitter [⟨[5], [0], 0⟩] = .error emptyClusterMsg ∧
    iterSplits 1 X2distinct headSplitter 1 [⟨[5], [0], 0⟩] = .error emptyClusterMsg := by
  have h : (([⟨[5], [0], 0⟩] : List ClusterNode).getD
      (worstIdx [⟨[5], [0], 0⟩]) nodeDefault).indices.length < 2 := by
    simp [worstIdx]
  exact ⟨h, (claim_c5_no_recovery 1 X2distinct headSplitter [⟨[5], [0], 0⟩] 0 h).1,
    (claim_c5_no_recovery 1 X2distinct headSplitter [⟨[5], [0], 0⟩] 0 h).2⟩

/-! Lemmas about the manual engine strategy dispatch, and claim theorems C7, C8. -/

theorem argmaxBy_lt (f : ManualCluster → ℚ) {cs : List ManualCluster} (h : cs ≠ []) :
    argmaxBy f cs < cs.length := by
  induction cs with
  | nil => exact absurd rfl h
  | cons c rest ih =>
    by_cases hr : rest.isEmpty
    · simp [argmaxBy, hr]
    · have hrne : rest ≠ [] := by
        cases rest with
        | nil => simp at hr
        | cons a t => simp
      have := ih hrne
      simp only [argmaxBy, hr, if_false, List.length_cons]
      split_ifs <;> omega

theorem argmaxBy_ge (f : ManualCluster → ℚ) (cs : List ManualCluster) (j : Nat)
    (hj : j < cs.length) :
    f (cs.getD j manualDefault) ≤ f (cs.getD (argmaxBy f cs) manualDefault) := by
  induction cs generalizing j with
  | nil => simp at hj
  | cons c rest ih =>
    cases rest with
    | nil =>
      simp only [List.length_cons, List.length_nil, Nat.lt_succ_iff, Nat.le_zero] at hj
      subst hj
      simp [argmaxBy]
    | cons c2 t =>
      rw [show argmaxBy f (c :: c2 :: t) =
        (if f c < f ((c2 :: t).getD (argmaxBy f (c2 :: t)) manualDefault)
          then argmaxBy f (c2 :: t) + 1 else 0) from by simp [argmaxBy]]
      split_ifs with hsc
      · rcases j with _ | i
        · simpa using le_of_lt hsc
        · simp only [List.getD_cons_succ]
          exact ih i (by simpa using hj)
      · push_neg at hsc
        rcases j with _ | i
        · simp
        · simp only [List.getD_cons_succ, List.getD_cons_zero]
          exact le_trans (ih i (by simpa using hj)) hsc

/-- C7, counterexample: the strategy name `"largest_inertia"` given in the
spec is not accepted by the engine: `cluster_logs_manual` raises its
`ValueError` for it (the accepted names are `"biggest_inertia"` and
`"largest_cluster"`), so the claim's pair of supported names is wrong. -/
theorem claim_c7_counterexample :
    selectTargetCid "largest_inertia" [⟨[0], 0⟩] = .error strategyErrorMsg ∧
    selectTargetCid "biggest_inertia" [⟨[0], 0⟩] = .ok 0 := by
  constructor
  · rfl
  · rfl

/-- C7 (amended): the manual engine's split selection is a configurable
strategy consumed as a parameter (alongside `random_state` and `n_init`), but
the two supported names are `"biggest_inertia"` and `"largest_cluster"` — not
`"largest_inertia"`, which is rejected with `ValueError`. Each supported name
selects a cluster whose key (total inertia, respectively population) is
maximal, first index winning ties; the pipeline entry `bkm_fit` never passes a
strategy and always runs the default `"biggest_inertia"` with fixed seed 42
and 5 restarts. -/
theorem claim_c7_strategies (cs : List ManualCluster) (n : Nat) (hne : cs ≠ []) :
    (∃ j, selectTargetCid "biggest_inertia" cs = .ok j ∧ j < cs.length ∧
      ∀ i, i < cs.length →
        (cs.getD i manualDefault).inertia ≤ (cs.getD j manualDefault).inertia) ∧
    (∃ j, selectTargetCid "largest_cluster" cs = .ok j ∧ j < cs.length ∧
      ∀ i, i < cs.length →
        (cs.getD i manualDefault).indices.length ≤ (cs.getD j manualDefault).indices.length) ∧
    (∀ s, s ≠ "biggest_inertia" → s ≠ "largest_cluster" →
      selectTargetCid s cs = .error strategyErrorMsg) ∧
    (bkmFitParams n).bisecting_strategy = "biggest_inertia" ∧
    (bkmFitParams n).random_state = 42 ∧ (bkmFitParams n).n_init = 5 := by
  refine ⟨⟨argmaxBy ManualCluster.inertia cs, ?_, argmaxBy_lt _ hne, ?_⟩,
    ⟨argmaxBy (fun c => (c.indices.length : ℚ)) cs, ?_, argmaxBy_lt _ hne, ?_⟩,
    ?_, rfl, rfl, rfl⟩
  · rfl
  · intro i hi
    exact argmaxBy_ge ManualCluster.inertia cs i hi
  · rfl
  · intro i hi
    have h1 := argmaxBy_ge (fun c => (c.indices.length : ℚ)) cs i hi
    have h2 : ((cs.getD i manualDefault).indices.length : ℚ) ≤
        (((cs.getD (argmaxBy (fun c => (c.indices.length : ℚ)) cs)
          manualDefault).indices.length : ℚ)) := h1
    exact_mod_cast h2
  · intro s hs1 hs2
    simp only [selectTargetCid, if_neg hs1, if_neg hs2]

/-- C7 witness for the amended statement, on a concrete two-cluster state. -/
theorem claim_c7_strategies_witness :
    ([⟨[0], 0⟩, ⟨[1, 2], 1⟩] : List ManualCluster) ≠ [] ∧
    (∃ j, selectTargetCid "biggest_inertia" [⟨[0], 0⟩, ⟨[1, 2], 1⟩] = .ok j ∧
      j < 2 ∧ ∀ i, i < 2 →
        (([⟨[0], 0⟩, ⟨[1, 2], 1⟩] : List ManualCluster).getD i manualDefault).inertia ≤
        (([⟨[0], 0⟩, ⟨[1, 2], 1⟩] : List ManualCluster).getD j manualDefault).inertia) := by
  have hne : ([⟨[0], 0⟩, ⟨[1, 2], 1⟩] : List ManualCluster) ≠ [] := by simp
  exact ⟨hne, (claim_c7_strategies [⟨[0], 0⟩, ⟨[1, 2], 1⟩] 8 hne).1⟩

/-- C8: for every `k`, the orchestrator budget has exactly 8 stages, assigns
the clustering stage exactly `4 + max(1, k-1) + 3` units and 1 unit to every
other stage (total `7 + (4 + max(1, k-1) + 3)`), and both local fallbacks —
the engine's own scale in `fit_verbose` and the tracker `bkm_fit` builds when
given none — use the very same formula. -/
theorem claim_c8_unit_budget (k : Int) :
    pipelineStages.length = 8 ∧
    stageUnits k "fit_model_on_sample" = 4 + max 1 (k - 1) + 3 ∧
    (∀ s ∈ pipelineStages, s ≠ "fit_model_on_sample" → stageUnits k s = 1) ∧
    pipelineTotalUnits k = 7 + (4 + max 1 (k - 1) + 3) ∧
    fitVerboseLocalTotalUnits k = 4 + max 1 (k - 1) + 3 ∧
    bkmFitFallbackTotal k = 4 + max 1 (k - 1) + 3 ∧
    (ProgressManager.make (bkmFitFallbackTotal k) Option.none).total_units =
      4 + max 1 (k - 1) + 3 := by
  refine ⟨rfl, rfl, ?_, ?_, rfl, rfl, ?_⟩
  · intro s _ hs
    simp only [stageUnits, if_neg hs]
  · have hval : ∀ sname : String, sname ≠ "fit_model_on_sample" → stageUnits k sname = 1 :=
      fun sname hs => by simp only [stageUnits, if_neg hs]
    simp only [pipelineTotalUnits, pipelineStages, List.map_cons, List.map_nil,
      List.sum_cons, List.sum_nil,
      hval "read_and_parse" (by decide), hval "extract_and_tokenize" (by decide),
      hval "embed_urls" (by decide), hval "vectorize_other_features" (by decide),
      hval "combine_and_sample" (by decide), hval "assign_and_save" (by decide),
      hval "evaluate_and_finish" (by decide)]
    have hfit : stageUnits k "fit_model_on_sample" = bkmUnits k := rfl
    rw [hfit]
    simp only [bkmUnits]
    ring
  · simp only [ProgressManager.make, bkmFitFallbackTotal]
    omega

/-! The emitted-trace lemma for the progress tracker, and claim theorems C6, C9. -/

theorem emitted_cases (pm : ProgressManager) (op : ProgressOp) :
    pm.emitted op = [] ∨ pm.emitted op = [(pm.applyOp op).reportPct] := by
  cases op with
  | advance u => exact Or.inr rfl
  | complete => exact Or.inr rfl
  | setStatus m => exact Or.inl rfl

theorem runOps_spec {pm : ProgressManager} (h : pm.WF) (ops : List ProgressOp) :
    (runOps pm ops).1.WF ∧ (runOps pm ops).1.total_units = pm.total_units ∧
    pm.current ≤ (runOps pm ops).1.current ∧
    (∀ x ∈ (runOps pm ops).2, pm.reportPct ≤ x ∧ 0 ≤ x ∧ x ≤ 100) ∧
    (runOps pm ops).2.Pairwise (· ≤ ·) := by
  induction ops generalizing pm with
  | nil => exact ⟨h, rfl, le_refl _, by simp [runOps], by simp [runOps]⟩
  | cons op rest ih =>
    have hWF1 : (pm.applyOp op).WF := ProgressManager.applyOp_WF h op
    obtain ⟨iWF, iT, iC, iB, iP⟩ := ih hWF1
    have htot := ProgressManager.applyOp_total_units pm op
    have hcur := ProgressManager.applyOp_current_mono h op
    have hpct : pm.reportPct ≤ (pm.applyOp op).reportPct :=
      ProgressManager.reportPct_mono htot.symm h.1 hcur
    have hrun : runOps pm (op :: rest) =
        ((runOps (pm.applyOp op) rest).1, pm.emitted op ++ (runOps (pm.applyOp op) rest).2) := by
      simp [runOps]
    rw [hrun]
    refine ⟨iWF, by rw [iT, htot], le_trans hcur iC, ?_, ?_⟩
    · intro x hx
      rcases List.mem_append.mp hx with hx1 | hx2
      · rcases emitted_cases pm op with he | he
        · rw [he] at hx1; simp at hx1
        · rw [he] at hx1
          rw [List.mem_singleton.mp hx1]
          exact ⟨hpct, ProgressManager.reportPct_nonneg hWF1,
            ProgressManager.reportPct_le_hundred hWF1⟩
      · obtain ⟨hb, hb0, hb100⟩ := iB x hx2
        exact ⟨le_trans hpct hb, hb0, hb100⟩
    · rw [List.pairwise_append]
      refine ⟨?_, iP, ?_⟩
      · rcases emitted_cases pm op with he | he <;> rw [he] <;> simp
      · intro a ha b hb
        rcases emitted_cases pm op with he | he
        · rw [he] at ha; simp at ha
        · rw [he] at ha
          rw [List.mem_singleton.mp ha]
          exact (iB b hb).1

/-- C6: `advance(units)` with nonnegative `units` sets `current` to
`min(total_units, current + units)`, so progress saturates at `total_units`
and never decreases; every reported percentage equals
`round(current / total_units * 100)`; and over the whole life of one tracker
the emitted `PROGRESS:` integers form a monotonically non-decreasing sequence
inside `[0, 100]`. -/
theorem claim_c6_progress_monotone (pm : ProgressManager) (units t : Int)
    (s : Option String) (ops : List ProgressOp) (hWF : pm.WF) (hu : 0 ≤ units) :
    (pm.advance units).current = min pm.total_units (pm.current + units) ∧
    pm.current ≤ (pm.advance units).current ∧
    (pm.advance units).current ≤ pm.total_units ∧
    (pm.advance units).reportPct =
      pyRound (((pm.advance units).current : ℚ) / ((pm.advance units).total_units : ℚ) * 100) ∧
    (runOps (ProgressManager.make t s) ops).2.Pairwise (· ≤ ·) ∧
    (∀ x ∈ (runOps (ProgressManager.make t s) ops).2, 0 ≤ x ∧ x ≤ 100) := by
  obtain ⟨h1, h2, h3⟩ := hWF
  obtain ⟨_, _, _, hB, hP⟩ := runOps_spec (ProgressManager.make_WF t s) ops
  refine ⟨?_, ?_, ?_, rfl, hP, fun x hx => ⟨(hB x hx).2.1, (hB x hx).2.2⟩⟩
  · simp only [ProgressManager.advance, max_eq_right hu]
  · simp only [ProgressManager.advance]
    exact le_min h3 (by omega)
  · exact min_le_left _ _

/-- C6 witness: a concrete tracker run. -/
theorem claim_c6_progress_monotone_witness :
    ((⟨10, 3, ""⟩ : ProgressManager).WF ∧ (0 : Int) ≤ 4) ∧
    ((⟨10, 3, ""⟩ : ProgressManager).advance 4).current = min 10 (3 + 4) ∧
    (runOps (ProgressManager.make 5 Option.none)
      [ProgressOp.advance 2, ProgressOp.setStatus "x", ProgressOp.advance 9,
        ProgressOp.complete]).2.Pairwise (· ≤ ·) := by
  have hWF : (⟨10, 3, ""⟩ : ProgressManager).WF := ⟨by decide, by decide, by decide⟩
  have h := claim_c6_progress_monotone ⟨10, 3, ""⟩ 4 5 Option.none
    [ProgressOp.advance 2, ProgressOp.setStatus "x", ProgressOp.advance 9, ProgressOp.complete]
    hWF (by decide)
  exact ⟨⟨hWF, by decide⟩, h.1, h.2.2.2.2.1⟩

/-- C9: `ProgressManager` is total over all integer inputs — the constructor
clamps `total_units` to `max(1, total_units)` (so it is at least 1 and the
percentage never divides by zero), `advance` clamps negative units to 0 and
leaves `current` unchanged, and after any sequence of operations the state
satisfies `0 ≤ current ≤ total_units` with `1 ≤ total_units` and the reported
percentage lies in `[0, 100]`. -/
theorem claim_c9_progress_safety (t u : Int) (s : Option String) (pm : ProgressManager)
    (ops : List ProgressOp) (hWF : pm.WF) (hu : u ≤ 0) :
    (ProgressManager.make t s).total_units = max 1 t ∧
    1 ≤ (ProgressManager.make t s).total_units ∧
    (pm.advance u).current = pm.current ∧
    (runOps (ProgressManager.make t s) ops).1.WF ∧
    0 ≤ (runOps (ProgressManager.make t s) ops).1.reportPct ∧
    (runOps (ProgressManager.make t s) ops).1.reportPct ≤ 100 := by
  obtain ⟨h1, h2, h3⟩ := hWF
  obtain ⟨hW, _, _, _, _⟩ := runOps_spec (ProgressManager.make_WF t s) ops
  refine ⟨rfl, le_max_left _ _, ?_, hW, ProgressManager.reportPct_nonneg hW,
    ProgressManager.reportPct_le_hundred hW⟩
  simp only [ProgressManager.advance, max_eq_left hu]
  omega

/-- C9 witness: a constructor call with a nonpositive budget and a negative
advance. -/
theorem claim_c9_progress_safety_witness :
    ((⟨7, 2, ""⟩ : ProgressManager).WF ∧ (-3 : Int) ≤ 0) ∧
    (ProgressManager.make (-4) Option.none).total_units = max 1 (-4) ∧
    ((⟨7, 2, ""⟩ : ProgressManager).advance (-3)).current = 2 ∧
    0 ≤ (runOps (ProgressManager.make (-4) Option.none) [ProgressOp.advance 1]).1.reportPct := by
  have hWF : (⟨7, 2, ""⟩ : ProgressManager).WF := ⟨by decide, by decide, by decide⟩
  have h := claim_c9_progress_safety (-4) (-3) Option.none ⟨7, 2, ""⟩
    [ProgressOp.advance 1] hWF (by decide)
  exact ⟨⟨hWF, by decide⟩, h.1, h.2.2.1, h.2.2.2.2.1⟩

/-! Lemmas about the embedding cache model. -/

theorem insertSortedStr_perm (s : String) (l : List String) :
    (insertSortedStr s l).Perm (s :: l) := by
  induction l with
  | nil => exact List.Perm.refl _
  | cons t rest ih =>
    simp only [insertSortedStr]
    split_ifs with h
    · exact List.Perm.refl _
    · exact (List.Perm.cons t ih).trans (List.Perm.swap s t rest)

theorem sortStrings_perm (l : List String) : (sortStrings l).Perm l := by
  induction l with
  | nil => exact List.Perm.refl _
  | cons t rest ih =>
    simp only [sortStrings, List.foldr_cons]
    exact (insertSortedStr_perm t _).trans (List.Perm.cons t ih)

theorem uniqueSorted_perm_dedup (l : List String) : (uniqueSorted l).Perm l.dedup :=
  sortStrings_perm l.dedup

theorem uniqueSorted_nodup (l : List String) : (uniqueSorted l).Nodup :=
  ((uniqueSorted_perm_dedup l).nodup_iff).mpr l.nodup_dedup

theorem mem_uniqueSorted {l : List String} {u : String} : u ∈ uniqueSorted l ↔ u ∈ l := by
  rw [(uniqueSorted_perm_dedup l).mem_iff, List.mem_dedup]

theorem getD_indexOf {l : List String} {u : String} (h : u ∈ l) :
    l.getD (l.indexOf u) "" = u := by
  have hlt : l.indexOf u < l.length := List.indexOf_lt_length.mpr h
  rw [List.getD_eq_getElem _ _ hlt]
  exact List.getElem_indexOf hlt

theorem getD_default_irrel {α : Type} {l : List α} {p : Nat} (hp : p < l.length) (d1 d2 : α) :
    l.getD p d1 = l.getD p d2 := by
  rw [List.getD_eq_getElem _ _ hp, List.getD_eq_getElem _ _ hp]

theorem chunked_flatten {α : Type} {bs : Nat} (hbs : 1 ≤ bs) (l : List α) :
    (chunked bs l).flatten = l := by
  have H : ∀ n (l2 : List α), l2.length ≤ n → (chunked bs l2).flatten = l2 := by
    intro n
    induction n with
    | zero =>
      intro l2 hl2
      have hnil : l2 = [] := List.length_eq_zero.mp (by omega)
      subst hnil
      rw [chunked]
      simp
    | succ m ihm =>
      intro l2 hl2
      rw [chunked]
      split_ifs with hcond
      · rcases hcond with hb | hnil
        · omega
        · simp only [List.flatten_nil]
          exact (List.isEmpty_iff.mp hnil).symm
      · push_neg at hcond
        have hl2ne : l2 ≠ [] := fun he => hcond.2 (by rw [he]; rfl)
        have hpos : 0 < l2.length := List.length_pos.mpr hl2ne
        simp only [List.flatten_cons]
        rw [ihm (l2.drop bs) (by simp only [List.length_drop]; omega)]
        exact List.take_append_drop bs l2
  exact H l.length l (le_refl _)

theorem mem_flatten_of_mem_chunked {α : Type} {bs : Nat} {l : List α} {b : List α} {u : α}
    (hb : b ∈ chunked bs l) (hu : u ∈ b) : u ∈ (chunked bs l).flatten :=
  List.mem_flatten.mpr ⟨b, hb, hu⟩

theorem writeRows_length (rows : List QVec) :
    ∀ (s : List QVec) (off : Nat), (writeRows s off rows).length = s.length := by
  induction rows with
  | nil => intro s off; rfl
  | cons v vs ih =>
    intro s off
    simp only [writeRows]
    rw [ih, List.length_set]

theorem writeRows_getD_lt (rows : List QVec) :
    ∀ (s : List QVec) (off p : Nat) (d : QVec), p < off →
      (writeRows s off rows).getD p d = s.getD p d := by
  induction rows with
  | nil => intro s off p d _; rfl
  | cons v vs ih =>
    intro s off p d hp
    simp only [writeRows]
    rw [ih _ _ _ _ (by omega)]
    by_cases hps : p < s.length
    · have hne : off ≠ p := by omega
      rw [List.getD_eq_getElem _ _ (by rw [List.length_set]; exact hps),
        List.getD_eq_getElem _ _ hps]
      rw [List.getElem_set]
      rw [if_neg hne]
    · rw [List.getD_eq_default _ _ (by rw [List.length_set]; omega),
        List.getD_eq_default _ _ (by omega)]

theorem writeRows_getD_at (rows : List QVec) :
    ∀ (s : List QVec) (off j : Nat) (d dj : QVec), off + rows.length ≤ s.length →
      j < rows.length →
      (writeRows s off rows).getD (off + j) d = rows.getD j dj := by
  induction rows with
  | nil => intro s off j d dj _ hj; simp at hj
  | cons v vs ih =>
    intro s off j d dj hfit hj
    simp only [writeRows]
    rcases j with _ | j2
    · rw [writeRows_getD_lt vs _ _ _ _ (by omega)]
      simp only [Nat.add_zero, List.getD_cons_zero]
      have hoff : off < s.length := by
        simp only [List.length_cons] at hfit
        omega
      rw [List.getD_eq_getElem _ _ (by rw [List.length_set]; exact hoff)]
      simp [List.getElem_set_self, hoff]
    · have : off + (j2 + 1) = (off + 1) + j2 := by omega
      rw [this]
      rw [ih (s.set off v) (off + 1) j2 d dj
        (by rw [List.length_set]; simp only [List.length_cons] at hfit; omega)
        (by simp only [List.length_cons] at hj; omega)]
      simp

theorem lookupIndex_append (idx1 idx2 : List (String × Nat)) (u : String) :
    lookupIndex (idx1 ++ idx2) u =
      (lookupIndex idx1 u).orElse (fun _ => lookupIndex idx2 u) := by
  unfold lookupIndex
  rw [List.find?_append]
  cases h : idx1.find? (fun p => p.1 == u) with
  | none => simp [h]
  | some p => simp [h]

theorem lookupIndex_append_left {idx1 : List (String × Nat)} (idx2 : List (String × Nat))
    {u : String} (h : (lookupIndex idx1 u).isSome) :
    lookupIndex (idx1 ++ idx2) u = lookupIndex idx1 u := by
  rw [lookupIndex_append]
  cases hx : lookupIndex idx1 u with
  | none => rw [hx] at h; simp at h
  | some g => rfl

theorem lookupIndex_append_right {idx1 : List (String × Nat)} (idx2 : List (String × Nat))
    {u : String} (h : lookupIndex idx1 u = none) :
    lookupIndex (idx1 ++ idx2) u = lookupIndex idx2 u := by
  rw [lookupIndex_append, h]
  rfl

theorem lookupIndex_offsetEntries_mem {b : List String} {u : String} :
    ∀ {off j : Nat}, b.Nodup → j < b.length → b.getD j "" = u →
      lookupIndex (offsetEntries b off) u = some (off + j) := by
  induction b with
  | nil => intro off j _ hj _; simp at hj
  | cons v vs ih =>
    intro off j hnd hj hval
    rcases j with _ | j2
    · simp only [List.getD_cons_zero] at hval
      subst hval
      simp [lookupIndex, offsetEntries]
    · simp only [List.getD_cons_succ] at hval
      have hvne : v ≠ u := by
        intro hv
        subst hv
        have : v ∈ vs := by
          rw [← hval]
          exact getD_mem "" (by simpa using hj)
        exact (List.nodup_cons.mp hnd).1 this
      simp only [offsetEntries, lookupIndex, List.find?_cons]
      rw [show ((v, off).1 == u) = false from by simpa using hvne]
      have := @ih (off + 1) j2 (List.nodup_cons.mp hnd).2 (by simpa using hj) hval
      unfold lookupIndex at this
      rw [show off + 1 + j2 = off + (j2 + 1) from by omega] at this
      exact this

theorem lookupIndex_offsetEntries_notmem {b : List String} {u : String} (h : u ∉ b) :
    ∀ off : Nat, lookupIndex (offsetEntries b off) u = none := by
  induction b with
  | nil => intro off; rfl
  | cons v vs ih =>
    intro off
    have hvne : v ≠ u := fun hv => h (hv ▸ List.mem_cons_self v vs)
    simp only [offsetEntries, lookupIndex, List.find?_cons]
    rw [show ((v, off).1 == u) = false from by simpa using hvne]
    exact ih (fun hm => h (List.mem_cons_of_mem v hm)) (off + 1)

theorem offsetEntries_keys (b : List String) : ∀ off, (offsetEntries b off).map Prod.fst = b := by
  induction b with
  | nil => intro off; rfl
  | cons v vs ih =>
    intro off
    simp only [offsetEntries, List.map_cons, ih (off + 1)]

theorem offsetEntries_snd_lt (b : List String) :
    ∀ off, ∀ p ∈ offsetEntries b off, off ≤ p.2 ∧ p.2 < off + b.length := by
  induction b with
  | nil => intro off p hp; simp [offsetEntries] at hp
  | cons v vs ih =>
    intro off p hp
    simp only [offsetEntries] at hp
    rcases List.mem_cons.mp hp with rfl | hp2
    · simp
    · have := ih (off + 1) p hp2
      simp only [List.length_cons]
      omega

theorem find?_temp_append (t1 t2 : List (String × QVec)) (u : String) :
    (t1 ++ t2).find? (fun p => p.1 == u) =
      ((t1.find? (fun p => p.1 == u)).orElse (fun _ => t2.find? (fun p => p.1 == u))) := by
  rw [List.find?_append]
  cases h : t1.find? (fun p => p.1 == u) with
  | none => simp [h]
  | some p => simp [h]

theorem find?_zip_enc {enc : String → QVec} {b : List String} {u : String} (h : u ∈ b) :
    (b.zip (b.map enc)).find? (fun p => p.1 == u) = some (u, enc u) := by
  induction b with
  | nil => simp at h
  | cons v vs ih =>
    simp only [List.map_cons, List.zip_cons_cons, List.find?_cons]
    by_cases hv : v = u
    · subst hv
      simp
    · rw [show ((v, enc v).1 == u) = false from by simpa using hv]
      rcases List.mem_cons.mp h with rfl | h2
      · exact absurd rfl hv
      · exact ih h2

theorem find?_zip_enc_notmem {enc : String → QVec} {b : List String} {u : String} (h : u ∉ b) :
    (b.zip (b.map enc)).find? (fun p => p.1 == u) = none := by
  induction b with
  | nil => rfl
  | cons v vs ih =>
    have hv : v ≠ u := fun he => h (he ▸ List.mem_cons_self v vs)
    simp only [List.map_cons, List.zip_cons_cons, List.find?_cons]
    rw [show ((v, enc v).1 == u) = false from by simpa using hv]
    exact ih (fun hm => h (List.mem_cons_of_mem v hm))

theorem lookupIndex_eq_none_iff {idx : List (String × Nat)} {u : String} :
    lookupIndex idx u = none ↔ u ∉ idx.map Prod.fst := by
  unfold lookupIndex
  constructor
  · intro h hm
    obtain ⟨p, hp, rfl⟩ := List.mem_map.mp hm
    rcases hf : idx.find? (fun q => q.1 == p.1) with _ | q
    · have := List.find?_eq_none.mp hf p hp
      simp at this
    · rw [hf] at h
      simp at h
  · intro hm
    have hf : idx.find? (fun q => q.1 == u) = none := by
      apply List.find?_eq_none.mpr
      intro q hq
      simp only [beq_iff_eq]
      intro he
      exact hm (List.mem_map.mpr ⟨q, hq, he⟩)
    rw [hf]
    rfl

theorem processBatch_spec (enc : String → QVec) (capacity : Nat) (acc : BatchAcc)
    (b : List String) (hWF : AccWF capacity acc) (hbnd : b.Nodup)
    (hfreshI : ∀ u ∈ b, lookupIndex acc.index u = none)
    (hfreshT : ∀ u ∈ b, acc.temp.find? (fun p => p.1 == u) = none) :
    AccWF capacity (processBatch enc capacity acc b) ∧
    acc.n_stored ≤ (processBatch enc capacity acc b).n_stored ∧
    (∀ p d, p < acc.n_stored →
      (processBatch enc capacity acc b).store.getD p d = acc.store.getD p d) ∧
    (∀ u, (lookupIndex acc.index u).isSome →
      lookupIndex (processBatch enc capacity acc b).index u = lookupIndex acc.index u) ∧
    (∀ u, (acc.temp.find? (fun p => p.1 == u)).isSome →
      (processBatch enc capacity acc b).temp.find? (fun p => p.1 == u) =
        acc.temp.find? (fun p => p.1 == u)) ∧
    (∀ u ∈ b,
      (∃ g, lookupIndex (processBatch enc capacity acc b).index u = some g ∧
        g < (processBatch enc capacity acc b).n_stored ∧
        (∀ d, (processBatch enc capacity acc b).store.getD g d = enc u)) ∨
      (lookupIndex (processBatch enc capacity acc b).index u = none ∧
        (processBatch enc capacity acc b).temp.find? (fun p => p.1 == u) = some (u, enc u))) ∧
    (∀ u, lookupIndex acc.index u = none → u ∉ b →
      lookupIndex (processBatch enc capacity acc b).index u = none) ∧
    (∀ u, acc.temp.find? (fun p => p.1 == u) = none → u ∉ b →
      (processBatch enc capacity acc b).temp.find? (fun p => p.1 == u) = none) := by
  obtain ⟨hnc, hsl, hoff, hnd⟩ := hWF
  simp only [processBatch]
  split_ifs with hcan
  · obtain ⟨hcap, hfit⟩ := hcan
    simp only [List.length_map] at hfit ⊢
    refine ⟨⟨hfit, ?_, ?_, ?_⟩, by omega, ?_, ?_, ?_, ?_, ?_, ?_⟩
    · rw [writeRows_length, hsl]
    · intro p hp
      show p.2 < acc.n_stored + b.length
      rcases List.mem_append.mp hp with hp1 | hp2
      · have := hoff p hp1
        omega
      · have := offsetEntries_snd_lt b acc.n_stored p hp2
        omega
    · rw [List.map_append, offsetEntries_keys]
      rw [List.nodup_append]
      refine ⟨hnd, hbnd, ?_⟩
      intro u hu hub
      obtain ⟨p, hp, rfl⟩ := List.mem_map.mp hu
      have := hfreshI _ hub
      rw [lookupIndex_eq_none_iff] at this
      exact this (List.mem_map.mpr ⟨p, hp, rfl⟩)
    · intro p d hp
      exact writeRows_getD_lt _ _ _ _ _ (by omega)
    · intro u hu
      exact lookupIndex_append_left _ hu
    · intro u _
      trivial
    · intro u hub
      left
      obtain ⟨j, hj, hbj⟩ := List.mem_iff_getElem.mp hub
      have hgd : b.getD j "" = u := by rw [List.getD_eq_getElem _ _ hj]; exact hbj
      refine ⟨acc.n_stored + j, ?_, by omega, ?_⟩
      · rw [lookupIndex_append_right _ (hfreshI u hub)]
        exact lookupIndex_offsetEntries_mem hbnd hj hgd
      · intro d
        rw [writeRows_getD_at (b.map enc) acc.store acc.n_stored j d (vzero 0)
          (by rw [hsl, List.length_map]; omega) (by rw [List.length_map]; omega)]
        rw [List.getD_eq_getElem _ _ (by rw [List.length_map]; omega)]
        rw [List.getElem_map]
        rw [hbj]
    · intro u hnone hub
      rw [lookupIndex_append_right _ hnone]
      exact lookupIndex_offsetEntries_notmem hub _
    · intro u hnone _
      exact hnone
  · dsimp only
    refine ⟨⟨hnc, hsl, hoff, hnd⟩, le_refl _, fun p d _ => rfl, fun u _ => rfl, ?_, ?_, ?_, ?_⟩
    · intro u hu
      rw [find?_temp_append]
      cases hx : acc.temp.find? (fun p => p.1 == u) with
      | none => rw [hx] at hu; simp at hu
      | some p => rfl
    · intro u hub
      right
      refine ⟨hfreshI u hub, ?_⟩
      rw [find?_temp_append, hfreshT u hub]
      exact find?_zip_enc hub
    · intro u hnone _
      exact hnone
    · intro u hnone hub
      rw [find?_temp_append, hnone]
      exact find?_zip_enc_notmem hub

theorem processBatches_spec (enc : String → QVec) (capacity : Nat) (bats : List (List String)) :
    ∀ acc : BatchAcc, AccWF capacity acc →
      bats.flatten.Nodup →
      (∀ u ∈ bats.flatten, lookupIndex acc.index u = none) →
      (∀ u ∈ bats.flatten, acc.temp.find? (fun p => p.1 == u) = none) →
      AccWF capacity (processBatches enc capacity acc bats) ∧
      acc.n_stored ≤ (processBatches enc capacity acc bats).n_stored ∧
      (∀ p d, p < acc.n_stored →
        (processBatches enc capacity acc bats).store.getD p d = acc.store.getD p d) ∧
      (∀ u, (lookupIndex acc.index u).isSome →
        lookupIndex (processBatches enc capacity acc bats).index u = lookupIndex acc.index u) ∧
      (∀ u, (acc.temp.find? (fun p => p.1 == u)).isSome →
        (processBatches enc capacity acc bats).temp.find? (fun p => p.1 == u) =
          acc.temp.find? (fun p => p.1 == u)) ∧
      (∀ u ∈ bats.flatten,
        (∃ g, lookupIndex (processBatches enc capacity acc bats).index u = some g ∧
          g < (processBatches enc capacity acc bats).n_stored ∧
          (∀ d, (processBatches enc capacity acc bats).store.getD g d = enc u)) ∨
        (lookupIndex (processBatches enc capacity acc bats).index u = none ∧
          (processBatches enc capacity acc bats).temp.find? (fun p => p.1 == u) =
            some (u, enc u))) ∧
      (∀ u, lookupIndex acc.index u = none → u ∉ bats.flatten →
        lookupIndex (processBatches enc capacity acc bats).index u = none) ∧
      (∀ u, acc.temp.find? (fun p => p.1 == u) = none → u ∉ bats.flatten →
        (processBatches enc capacity acc bats).temp.find? (fun p => p.1 == u) = none) := by
  induction bats with
  | nil =>
    intro acc hWF _ _ _
    exact ⟨hWF, le_refl _, fun p d _ => rfl, fun u _ => rfl, fun u _ => rfl, by simp,
      fun u h _ => h, fun u h _ => h⟩
  | cons b rest ih =>
    intro acc hWF hnd hfI hfT
    have hflat : (b :: rest).flatten = b ++ rest.flatten := rfl
    rw [hflat] at hnd hfI hfT
    have hnda := List.nodup_append.mp hnd
    obtain ⟨p1, p2, p3, p4, p5, p6, p7, p8⟩ :=
      processBatch_spec enc capacity acc b hWF hnda.1
        (fun u hu => hfI u (List.mem_append.mpr (Or.inl hu)))
        (fun u hu => hfT u (List.mem_append.mpr (Or.inl hu)))
    have hdisj : ∀ u ∈ rest.flatten, u ∉ b := fun u hu hub => hnda.2.2 hub hu
    have hdisj2 : ∀ u ∈ b, u ∉ rest.flatten := fun u hu hur => hnda.2.2 hu hur
    obtain ⟨q1, q2, q3, q4, q5, q6, q7, q8⟩ := ih (processBatch enc capacity acc b) p1 hnda.2.1
      (fun u hu => p7 u (hfI u (List.mem_append.mpr (Or.inr hu))) (hdisj u hu))
      (fun u hu => p8 u (hfT u (List.mem_append.mpr (Or.inr hu))) (hdisj u hu))
    have hrun : processBatches enc capacity acc (b :: rest) =
        processBatches enc capacity (processBatch enc capacity acc b) rest := rfl
    rw [hrun, hflat]
    refine ⟨q1, le_trans p2 q2, ?_, ?_, ?_, ?_, ?_, ?_⟩
    · intro p d hp
      rw [q3 p d (lt_of_lt_of_le hp p2), p3 p d hp]
    · intro u hu
      rw [q4 u (by rw [p4 u hu]; exact hu), p4 u hu]
    · intro u hu
      rw [q5 u (by rw [p5 u hu]; exact hu), p5 u hu]
    · intro u hu
      rcases List.mem_append.mp hu with hub | hur
      · rcases p6 u hub with ⟨g, hg1, hg2, hg3⟩ | ⟨hn1, ht1⟩
        · left
          refine ⟨g, ?_, lt_of_lt_of_le hg2 q2, ?_⟩
          · rw [q4 u (by rw [hg1]; rfl)]
            exact hg1
          · intro d
            rw [q3 g d hg2]
            exact hg3 d
        · right
          refine ⟨q7 u hn1 (hdisj2 u hub), ?_⟩
          rw [q5 u (by rw [ht1]; rfl)]
          exact ht1
      · exact q6 u hur
    · intro u hn hu
      exact q7 u (p7 u hn (fun hub => hu (List.mem_append.mpr (Or.inl hub))))
        (fun hur => hu (List.mem_append.mpr (Or.inr hur)))
    · intro u hn hu
      exact q8 u (p8 u hn (fun hub => hu (List.mem_append.mpr (Or.inl hub))))
        (fun hur => hu (List.mem_append.mpr (Or.inr hur)))

theorem grownCapacity_ge (capacity need : Nat) (M : Option Nat) :
    capacity ≤ grownCapacity capacity need M := by
  unfold grownCapacity
  cases M <;> simp only <;> split_ifs <;> omega

theorem grownCapacity_le {capacity need M0 : Nat} (hcap : capacity ≤ M0) :
    grownCapacity capacity need (some M0) ≤ M0 := by
  unfold grownCapacity
  simp only
  split_ifs <;> omega

theorem grownCapacity_refused {capacity need M0 : Nat} (hneed : 1 ≤ need) (hcap : M0 ≤ capacity) :
    grownCapacity capacity need (some M0) = capacity := by
  unfold grownCapacity
  simp only
  split_ifs <;> omega

theorem grownCapacity_zero (need : Nat) : grownCapacity 0 need Option.none = max 1024 need := by
  unfold grownCapacity
  simp

theorem grownCapacity_pos {capacity : Nat} (need : Nat) (h : 0 < capacity) :
    grownCapacity capacity need Option.none = max (capacity * 2) (capacity + need) := by
  unfold grownCapacity
  simp [h]

theorem grownCapacity_clamped {capacity need M0 : Nat} (h : capacity < M0) :
    grownCapacity capacity need (some M0) =
      min (max (if 0 < capacity then capacity * 2 else 1024) (capacity + need)) M0 := by
  unfold grownCapacity
  simp only
  split_ifs <;> omega

theorem growStore_index (dim : Nat) (st : CacheState) (need : Nat) (M : Option Nat) :
    (growStore dim st need M).index = st.index := by
  unfold growStore
  split_ifs <;> rfl

theorem growStore_n_stored (dim : Nat) (st : CacheState) (need : Nat) (M : Option Nat) :
    (growStore dim st need M).n_stored = st.n_stored := by
  unfold growStore
  split_ifs <;> rfl

theorem growStore_capacity_ge (dim : Nat) (st : CacheState) (need : Nat) (M : Option Nat) :
    st.capacity ≤ (growStore dim st need M).capacity := by
  unfold growStore
  split_ifs
  · exact grownCapacity_ge _ _ _
  · exact le_refl _

theorem growStore_capacity_le {dim need M0 : Nat} {st : CacheState} (hcap : st.capacity ≤ M0) :
    (growStore dim st need (some M0)).capacity ≤ M0 := by
  unfold growStore
  split_ifs
  · exact grownCapacity_le hcap
  · exact hcap

theorem growStore_length {dim need : Nat} {M : Option Nat} {st : CacheState}
    (h1 : st.n_stored ≤ st.capacity) (h2 : st.store.length = st.capacity) :
    (growStore dim st need M).store.length = (growStore dim st need M).capacity := by
  have hge := grownCapacity_ge st.capacity need M
  simp only [growStore]
  split_ifs
  · simp only [List.length_append, List.length_take, List.length_replicate]
    omega
  · exact h2

theorem growStore_getD {dim need : Nat} {M : Option Nat} {st : CacheState} {p : Nat}
    (h1 : st.n_stored ≤ st.capacity) (h2 : st.store.length = st.capacity)
    (hp : p < st.n_stored) (d : QVec) :
    (growStore dim st need M).store.getD p d = st.store.getD p d := by
  simp only [growStore]
  split_ifs
  · have htl : (st.store.take st.n_stored).length = st.n_stored := by
      rw [List.length_take]
      omega
    rw [List.getD_append _ _ _ _ (by omega)]
    rw [List.getD_eq_getElem _ _ (by omega), List.getD_eq_getElem _ _ (by omega)]
    exact List.getElem_take _
  · rfl

theorem getD_map_eq {α β : Type} (f : α → β) (l : List α) (p : Nat) (dβ : β) (dα : α)
    (hp : p < l.length) : (l.map f).getD p dβ = f (l.getD p dα) := by
  rw [List.getD_eq_getElem _ _ (by rw [List.length_map]; exact hp),
    List.getD_eq_getElem _ _ hp, List.getElem_map]

theorem lookupIndex_some_mem {idx : List (String × Nat)} {u : String} {g : Nat}
    (h : lookupIndex idx u = some g) : ∃ pr ∈ idx, pr.2 = g := by
  unfold lookupIndex at h
  cases hf : idx.find? (fun p => p.1 == u) with
  | none => rw [hf] at h; simp at h
  | some pr =>
    rw [hf] at h
    have h2 : pr.2 = g := by
      have : some pr.2 = some g := h
      exact Option.some.inj this
    exact ⟨pr, List.mem_of_find?_eq_some hf, h2⟩

theorem mem_urlsToCompute_iff {idx : List (String × Nat)} {uniq : List String} {u : String} :
    u ∈ urlsToCompute idx uniq ↔ u ∈ uniq ∧ lookupIndex idx u = none := by
  unfold urlsToCompute
  rw [List.mem_filter]
  constructor
  · rintro ⟨h1, h2⟩
    exact ⟨h1, Option.isNone_iff_eq_none.mp h2⟩
  · rintro ⟨h1, h2⟩
    exact ⟨h1, by rw [h2]; rfl⟩

theorem cachedSetup (enc : String → QVec) (dim bs : Nat) (url_list : List String)
    (M : Option Nat) (st : CacheState) (hbs : 1 ≤ bs) (hWF : CacheWF st) :
    AccWF (cachedGrown dim url_list M st).capacity (cachedAcc enc dim bs url_list M st) ∧
    st.n_stored ≤ (cachedAcc enc dim bs url_list M st).n_stored ∧
    (∀ p d, p < st.n_stored →
      (cachedAcc enc dim bs url_list M st).store.getD p d = st.store.getD p d) ∧
    (∀ u, (lookupIndex st.index u).isSome →
      lookupIndex (cachedAcc enc dim bs url_list M st).index u = lookupIndex st.index u) ∧
    (∀ u ∈ urlsToCompute st.index (uniqueSorted url_list),
      (∃ g, lookupIndex (cachedAcc enc dim bs url_list M st).index u = some g ∧
        g < (cachedAcc enc dim bs url_list M st).n_stored ∧
        (∀ d, (cachedAcc enc dim bs url_list M st).store.getD g d = enc u)) ∨
      (lookupIndex (cachedAcc enc dim bs url_list M st).index u = none ∧
        (cachedAcc enc dim bs url_list M st).temp.find? (fun pr => pr.1 == u) =
          some (u, enc u))) := by
  obtain ⟨hw1, hw2, hw3, hw4⟩ := hWF
  have hidx := growStore_index dim st (urlsToCompute st.index (uniqueSorted url_list)).length M
  have hn := growStore_n_stored dim st (urlsToCompute st.index (uniqueSorted url_list)).length M
  have hcapge := growStore_capacity_ge dim st
    (urlsToCompute st.index (uniqueSorted url_list)).length M
  have hlen := @growStore_length dim
    (urlsToCompute st.index (uniqueSorted url_list)).length M st hw1 hw2
  have hWF0 : AccWF (cachedGrown dim url_list M st).capacity
      ⟨(cachedGrown dim url_list M st).index, (cachedGrown dim url_list M st).n_stored,
        (cachedGrown dim url_list M st).store, []⟩ := by
    refine ⟨?_, ?_, ?_, ?_⟩
    · show (cachedGrown dim url_list M st).n_stored ≤ _
      unfold cachedGrown
      rw [hn]
      omega
    · exact hlen
    · show ∀ p ∈ (cachedGrown dim url_list M st).index, _
      unfold cachedGrown
      rw [hidx, hn]
      exact hw3
    · show ((cachedGrown dim url_list M st).index.map Prod.fst).Nodup
      unfold cachedGrown
      rw [hidx]
      exact hw4
  have hflat : (cachedBatches bs url_list st).flatten =
      urlsToCompute st.index (uniqueSorted url_list) :=
    chunked_flatten hbs _
  have htoCnd : (urlsToCompute st.index (uniqueSorted url_list)).Nodup :=
    (uniqueSorted_nodup url_list).filter _
  have hfI : ∀ u ∈ (cachedBatches bs url_list st).flatten,
      lookupIndex (cachedGrown dim url_list M st).index u = none := by
    intro u hu
    rw [hflat] at hu
    unfold cachedGrown
    rw [hidx]
    exact (mem_urlsToCompute_iff.mp hu).2
  obtain ⟨q1, q2, q3, q4, _, q6, _, _⟩ :=
    processBatches_spec enc (cachedGrown dim url_list M st).capacity
      (cachedBatches bs url_list st)
      ⟨(cachedGrown dim url_list M st).index, (cachedGrown dim url_list M st).n_stored,
        (cachedGrown dim url_list M st).store, []⟩
      hWF0 (by rw [hflat]; exact htoCnd) hfI (fun u _ => rfl)
  have hgn : (cachedGrown dim url_list M st).n_stored = st.n_stored := hn
  have hgidx : (cachedGrown dim url_list M st).index = st.index := hidx
  refine ⟨q1, ?_, ?_, ?_, ?_⟩
  · calc st.n_stored = (cachedGrown dim url_list M st).n_stored := hgn.symm
      _ ≤ (cachedAcc enc dim bs url_list M st).n_stored := q2
  · intro p d hp
    have hp2 : p < (cachedGrown dim url_list M st).n_stored := by rw [hgn]; exact hp
    calc (cachedAcc enc dim bs url_list M st).store.getD p d
        = (cachedGrown dim url_list M st).store.getD p d := q3 p d hp2
      _ = st.store.getD p d := growStore_getD hw1 hw2 hp d
  · intro u hu
    have hs : (lookupIndex (cachedGrown dim url_list M st).index u).isSome := by
      rw [hgidx]
      exact hu
    calc lookupIndex (cachedAcc enc dim bs url_list M st).index u
        = lookupIndex (cachedGrown dim url_list M st).index u := q4 u hs
      _ = lookupIndex st.index u := by rw [hgidx]
  · intro u hu
    exact q6 u (by rw [hflat]; exact hu)

theorem cached_rows_getD (enc : String → QVec) (dim bs : Nat) (url_list : List String)
    (M : Option Nat) (st : CacheState) {p : Nat} (hp : p < url_list.length) :
    (generateUrlBertCached enc dim bs url_list M st).rows.getD p [] =
      rowFor (cachedAcc enc dim bs url_list M st).index
        (cachedAcc enc dim bs url_list M st).store
        (cachedAcc enc dim bs url_list M st).temp dim (url_list.getD p "") := by
  have hres : (generateUrlBertCached enc dim bs url_list M st).rows =
      (origToUnique url_list).map (fun ui =>
        rowFor (cachedAcc enc dim bs url_list M st).index
          (cachedAcc enc dim bs url_list M st).store
          (cachedAcc enc dim bs url_list M st).temp dim
          ((uniqueSorted url_list).getD ui "")) := rfl
  rw [hres]
  rw [getD_map_eq _ _ p [] 0 (by unfold origToUnique; rw [List.length_map]; exact hp)]
  have hidx : (origToUnique url_list).getD p 0 =
      (uniqueSorted url_list).indexOf (url_list.getD p "") := by
    unfold origToUnique
    exact getD_map_eq (fun u => (uniqueSorted url_list).indexOf u) url_list p 0 "" hp
  rw [hidx]
  rw [getD_indexOf (mem_uniqueSorted.mpr (getD_mem "" hp))]

/-- C3: the cached embedding path never re-invokes the encoder for a key it
has already seen. Within one call every missing unique key is placed in the
encoder batches exactly once (a duplicated key is encoded once), equal keys
get identical output rows (for `["a", "b", "a"]`, row 0 equals row 2), and
keys already present in the persisted key-to-offset index appear in no encoder
batch at all and are served the previously stored row, bit-identical to what
the store held before the call. -/
theorem claim_c3_cache_dedup (enc : String → QVec) (dim bs : Nat) (url_list : List String)
    (M : Option Nat) (st : CacheState) (hbs : 1 ≤ bs) (hWF : CacheWF st) :
    (∀ u, (lookupIndex st.index u).isSome →
      ∀ b ∈ (generateUrlBertCached enc dim bs url_list M st).encoderBatches, u ∉ b) ∧
    (∀ u ∈ url_list, lookupIndex st.index u = none →
      (generateUrlBertCached enc dim bs url_list M st).encoderBatches.flatten.count u = 1) ∧
    (∀ p q, p < url_list.length → q < url_list.length →
      url_list.getD p "" = url_list.getD q "" →
      (generateUrlBertCached enc dim bs url_list M st).rows.getD p [] =
        (generateUrlBertCached enc dim bs url_list M st).rows.getD q []) ∧
    (∀ u g, lookupIndex st.index u = some g → ∀ p, p < url_list.length →
      url_list.getD p "" = u →
      (generateUrlBertCached enc dim bs url_list M st).rows.getD p [] =
        st.store.getD g []) := by
  obtain ⟨hw1, hw2, hw3, hw4⟩ := hWF
  have hbat : (generateUrlBertCached enc dim bs url_list M st).encoderBatches =
      cachedBatches bs url_list st := rfl
  have hflat : (cachedBatches bs url_list st).flatten =
      urlsToCompute st.index (uniqueSorted url_list) := chunked_flatten hbs _
  have htoCnd : (urlsToCompute st.index (uniqueSorted url_list)).Nodup :=
    (uniqueSorted_nodup url_list).filter _
  obtain ⟨hA, hB, hC, hD, hE⟩ := cachedSetup enc dim bs url_list M st hbs ⟨hw1, hw2, hw3, hw4⟩
  refine ⟨?_, ?_, ?_, ?_⟩
  · intro u hu b hb hub
    rw [hbat] at hb
    have hmem : u ∈ urlsToCompute st.index (uniqueSorted url_list) := by
      rw [← hflat]
      exact List.mem_flatten.mpr ⟨b, hb, hub⟩
    have := (mem_urlsToCompute_iff.mp hmem).2
    rw [this] at hu
    simp at hu
  · intro u hu hnone
    rw [hbat, hflat]
    apply List.count_eq_one_of_mem htoCnd
    exact mem_urlsToCompute_iff.mpr ⟨mem_uniqueSorted.mpr hu, hnone⟩
  · intro p q hp hq heq
    rw [cached_rows_getD enc dim bs url_list M st hp,
      cached_rows_getD enc dim bs url_list M st hq, heq]
  · intro u g hg p hp hval
    rw [cached_rows_getD enc dim bs url_list M st hp, hval]
    have hstable := hD u (by rw [hg]; rfl)
    rw [hg] at hstable
    unfold rowFor
    rw [hstable]
    have hglt : g < st.n_stored := by
      obtain ⟨pr, hpr, hpr2⟩ := lookupIndex_some_mem hg
      rw [← hpr2]
      exact hw3 pr hpr
    show (cachedAcc enc dim bs url_list M st).store.getD g (vzero dim) = st.store.getD g []
    rw [hC g (vzero dim) hglt]
    exact getD_default_irrel (by omega) _ _

/-- C4: the store-growth policy of the cached embedding path. When free
capacity is short by `n` rows, the store grows to
`max(capacity * 2, capacity + n)` — 1024-based on the first growth from an
empty store — clamped to `max_cache_rows` when that cap is set; once capacity
has reached the cap, growth is refused; starting at or below the cap the store
never ends a call with capacity or persisted-row count above the cap; and
every key missing from the index still receives its encoder vector in the
returned matrix, served from the store or from the transient in-memory
overflow. -/
theorem claim_c4_growth_policy (enc : String → QVec) (dim bs : Nat) (url_list : List String)
    (st : CacheState) (capacity need M0 : Nat) (hbs : 1 ≤ bs) (hWF : CacheWF st)
    (hneed : 1 ≤ need) (hcap : st.capacity ≤ M0) :
    grownCapacity 0 need Option.none = max 1024 need ∧
    (0 < capacity → grownCapacity capacity need Option.none =
      max (capacity * 2) (capacity + need)) ∧
    (capacity < M0 → grownCapacity capacity need (some M0) =
      min (max (if 0 < capacity then capacity * 2 else 1024) (capacity + need)) M0) ∧
    (M0 ≤ capacity → grownCapacity capacity need (some M0) = capacity) ∧
    (generateUrlBertCached enc dim bs url_list (some M0) st).state.capacity ≤ M0 ∧
    (generateUrlBertCached enc dim bs url_list (some M0) st).state.n_stored ≤ M0 ∧
    (∀ p, p < url_list.length → lookupIndex st.index (url_list.getD p "") = none →
      (generateUrlBertCached enc dim bs url_list (some M0) st).rows.getD p [] =
        enc (url_list.getD p "")) := by
  obtain ⟨hw1, hw2, hw3, hw4⟩ := hWF
  obtain ⟨hA, hB, hC, hD, hE⟩ :=
    cachedSetup enc dim bs url_list (some M0) st hbs ⟨hw1, hw2, hw3, hw4⟩
  have hcapgrown : (cachedGrown dim url_list (some M0) st).capacity ≤ M0 :=
    growStore_capacity_le hcap
  have hstcap : (generateUrlBertCached enc dim bs url_list (some M0) st).state.capacity =
      (cachedGrown dim url_list (some M0) st).capacity := rfl
  have hstn : (generateUrlBertCached enc dim bs url_list (some M0) st).state.n_stored =
      (cachedAcc enc dim bs url_list (some M0) st).n_stored := rfl
  refine ⟨grownCapacity_zero need, fun h => grownCapacity_pos need h,
    fun h => grownCapacity_clamped h, fun h => grownCapacity_refused hneed h,
    by rw [hstcap]; exact hcapgrown, ?_, ?_⟩
  · rw [hstn]
    exact le_trans hA.1 hcapgrown
  · intro p hp hnone
    rw [cached_rows_getD enc dim bs url_list (some M0) st hp]
    have hmem : url_list.getD p "" ∈ urlsToCompute st.index (uniqueSorted url_list) :=
      mem_urlsToCompute_iff.mpr ⟨mem_uniqueSorted.mpr (getD_mem "" hp), hnone⟩
    rcases hE _ hmem with ⟨g, hg1, hg2, hg3⟩ | ⟨hn1, ht1⟩
    · unfold rowFor
      rw [hg1]
      exact hg3 (vzero dim)
    · unfold rowFor
      rw [hn1, ht1]

/-- C10: when `out_path` is falsy the cache subsystem is bypassed entirely —
the cache state is untouched (no deduplication, index lookup, or persistence),
the encoder runs over every batch of the full input list so a repeated key is
re-encoded once per occurrence, and the result is the dense full-precision
(float32) matrix of shape `len(url_list) × D` instead of the float16 memmap of
the cached path. -/
theorem claim_c10_nocache_bypass (enc : String → QVec) (dim bs : Nat)
    (url_list : List String) (M : Option Nat) (st : CacheState) (hbs : 1 ≤ bs) :
    (generateUrlBert enc dim bs url_list "" M st).state = st ∧
    (generateUrlBert enc dim bs url_list "" M st).encoderBatches.flatten = url_list ∧
    (∀ u, (generateUrlBert enc dim bs url_list "" M st).encoderBatches.flatten.count u =
      url_list.count u) ∧
    (generateUrlBert enc dim bs url_list "" M st).rows = url_list.map enc ∧
    (generateUrlBert enc dim bs url_list "" M st).rows.length = url_list.length ∧
    ((∀ u, (enc u).length = dim) →
      ∀ v ∈ (generateUrlBert enc dim bs url_list "" M st).rows, v.length = dim) ∧
    (generateUrlBert enc dim bs url_list "" M st).dtype = "float32" ∧
    (generateUrlBert enc dim bs url_list "embeddings" M st).dtype = "float16" := by
  have hflat : (chunked bs url_list).flatten = url_list := chunked_flatten hbs url_list
  have hrows : (generateUrlBert enc dim bs url_list "" M st).rows =
      ((chunked bs url_list).map (fun b => b.map enc)).flatten := rfl
  have hmapflat : ((chunked bs url_list).map (fun b => b.map enc)).flatten =
      ((chunked bs url_list).flatten).map enc := by
    induction chunked bs url_list with
    | nil => rfl
    | cons b rest ih =>
      simp only [List.map_cons, List.flatten_cons, List.map_append, ih]
  have hbat : (generateUrlBert enc dim bs url_list "" M st).encoderBatches =
      chunked bs url_list := rfl
  refine ⟨rfl, hflat, fun u => by rw [hbat, hflat], ?_, ?_, ?_, rfl, rfl⟩
  · rw [hrows, hmapflat, hflat]
  · rw [hrows, hmapflat, hflat, List.length_map]
  · intro hdim v hv
    rw [hrows, hmapflat, hflat] at hv
    obtain ⟨u, _, rfl⟩ := List.mem_map.mp hv
    exact hdim u

/-- C3 witness: on the spec's own example `["a", "b", "a"]` with key `"a"`
already persisted at offset 0, row 0 equals row 2. -/
theorem claim_c3_cache_dedup_witness :
    CacheWF ⟨[("a", 0)], 1, 1, [[7]]⟩ ∧
    (generateUrlBertCached (fun s => [(s.length : ℚ)]) 1 2 ["a", "b", "a"] Option.none
        ⟨[("a", 0)], 1, 1, [[7]]⟩).rows.getD 0 [] =
      (generateUrlBertCached (fun s => [(s.length : ℚ)]) 1 2 ["a", "b", "a"] Option.none
        ⟨[("a", 0)], 1, 1, [[7]]⟩).rows.getD 2 [] := by
  have hWF : CacheWF ⟨[("a", 0)], 1, 1, [[7]]⟩ :=
    ⟨by decide, by decide, by decide, by decide⟩
  exact ⟨hWF, (claim_c3_cache_dedup (fun s => [(s.length : ℚ)]) 1 2 ["a", "b", "a"]
    Option.none ⟨[("a", 0)], 1, 1, [[7]]⟩ (by decide) hWF).2.2.1 0 2 (by decide) (by decide) rfl⟩

/-- C4 witness: an empty store capped at 2 rows receives 3 unique keys; the
capacity formula holds, the persisted state stays within the cap, and the
overflowing key still gets its encoder vector in the returned matrix. -/
theorem claim_c4_growth_policy_witness :
    CacheWF ⟨[], 0, 0, []⟩ ∧
    grownCapacity 0 3 Option.none = max 1024 3 ∧
    (generateUrlBertCached (fun s => [(s.length : ℚ)]) 1 2 ["ccc", "bb", "a"] (some 2)
      ⟨[], 0, 0, []⟩).state.n_stored ≤ 2 ∧
    (generateUrlBertCached (fun s => [(s.length : ℚ)]) 1 2 ["ccc", "bb", "a"] (some 2)
        ⟨[], 0, 0, []⟩).rows.getD 0 [] = (fun s => [(s.length : ℚ)]) "ccc" := by
  have hWF : CacheWF ⟨[], 0, 0, []⟩ := ⟨by decide, by decide, by decide, by decide⟩
  have h := claim_c4_growth_policy (fun s => [(s.length : ℚ)]) 1 2 ["ccc", "bb", "a"]
    ⟨[], 0, 0, []⟩ 0 3 2 (by decide) hWF (by decide) (by decide)
  exact ⟨hWF, h.1, h.2.2.2.2.2.1, h.2.2.2.2.2.2 0 (by decide) rfl⟩

/-- C10 witness: a duplicated key is re-encoded in the uncached path and the
result is the dense float32 matrix. -/
theorem claim_c10_nocache_bypass_witness :
    (1 : Nat) ≤ 2 ∧
    (generateUrlBert (fun s => [(s.length : ℚ)]) 1 2 ["a", "a", "b"] "" Option.none
      ⟨[], 0, 0, []⟩).encoderBatches.flatten = ["a", "a", "b"] ∧
    (generateUrlBert (fun s => [(s.length : ℚ)]) 1 2 ["a", "a", "b"] "" Option.none
      ⟨[], 0, 0, []⟩).dtype = "float32" := by
  have h := claim_c10_nocache_bypass (fun s => [(s.length : ℚ)]) 1 2 ["a", "a", "b"]
    Option.none ⟨[], 0, 0, []⟩ (by decide)
  exact ⟨by decide, h.2.1, h.2.2.2.2.2.2.1⟩
